import Mathlib

/-
  Verification of the streaming message-assembly engine of the
  intelligent-chatbot repository.

  The embedding below translates the delta-folding loop of `handleSendMessage`
  (src/.opencode/plan/chat-input-enhancements.md, lines 500-654), the SSE
  decoder `streamChatCompletion` (src/unnamed/part_010, lines 29-58), and the
  `completedToolIds` computation (src/components/MessageList.tsx, lines
  155-180) into Lean.

  JavaScript objects are aliased by reference: the same `ToolCall` object
  stored in `currentToolCalls` is also referenced from `tool_calls` parts and
  from the denormalized `tool_calls` field, and later `+=` mutations are seen
  through every alias.  The embedding makes the heap explicit: `store` is the
  heap of allocated ToolCall objects, an allocation id (position in `store`)
  plays the role of an object reference, and `tool_calls` parts hold
  allocation ids.  `Array.prototype.includes` on objects is reference
  equality, i.e. equality of allocation ids.
-/

namespace Chatbot

/-- JS truthiness of an optional string: `undefined`, `null` and `""` are all falsy. -/
def strTruthy : Option String → Bool
  | none => false
  | some s => !s.isEmpty

/-- Usage record of a frame (`StreamChunk.usage` in src/types.ts). -/
structure Usage where
  prompt_tokens : Nat
  completion_tokens : Nat
  total_tokens : Nat
deriving DecidableEq, Repr

/-- The `function` member of a ToolCall (src/types.ts `ToolCall.function`). -/
structure ToolFn where
  name : String
  arguments : String
deriving DecidableEq, Repr

/-- A tool call accumulator value (src/types.ts `ToolCall`); `type` is always the literal `"function"`. -/
structure ToolCall where
  id : String
  type : String := "function"
  function : ToolFn
deriving DecidableEq, Repr

/-- A completed tool result (src/types.ts `ToolResult`). -/
structure ToolResult where
  tool_call_id : String
  name : String
  output : String
  status : String
deriving DecidableEq, Repr

/-- An interrupt signal (src/types.ts `InterruptInfo`); the payload is carried opaquely and never inspected, so it is modelled as a string. -/
structure InterruptInfo where
  type : String
  message : String
  payload : String
deriving DecidableEq, Repr

/-- A message part as stored by the assembler.  `toolCalls` parts hold
references (allocation ids into the heap `store`) because the source pushes
the very accumulator objects into the part and keeps mutating them. -/
inductive PartR where
  | reasoning (content : String)
  | toolCalls (ids : List Nat)
  | toolResult (rs : List ToolResult)
  | text (content : String)
deriving DecidableEq, Repr

/-- A message part as the renderer sees it (src/types.ts `MessagePart`), with tool calls resolved to values. -/
inductive MessagePart where
  | reasoning (content : String)
  | tool_calls (tool_calls : List ToolCall)
  | tool_result (tool_result : List ToolResult)
  | text (content : String)
deriving DecidableEq, Repr

/-- The `function` member of a streamed tool-call fragment (src/types.ts `ToolCallChunk.function`). -/
structure ToolFnChunk where
  name : Option String := none
  arguments : Option String := none
deriving DecidableEq, Repr

/-- A streamed tool-call fragment (src/types.ts `ToolCallChunk`). -/
structure ToolCallChunk where
  index : Nat
  id : Option String := none
  function : Option ToolFnChunk := none
deriving DecidableEq, Repr

/-- The delta payload of a choice (src/types.ts `StreamChunk.choices[0].delta`). -/
structure Delta where
  reasoning_content : Option String := none
  content : Option String := none
  tool_calls : Option (List ToolCallChunk) := none
  tool_result : Option ToolResult := none
  interrupt_info : Option InterruptInfo := none
deriving DecidableEq, Repr

/-- One element of a frame's `choices` array; `delta` is optional because the code guards `chunk.choices[0]?.delta` and `if (!delta) continue`. -/
structure Choice where
  delta : Option Delta := none
deriving DecidableEq, Repr

/-- A decoded SSE frame (src/types.ts `StreamChunk`); only the fields the fold reads are modelled. -/
structure Chunk where
  id : Option String := none
  message_id : Option String := none
  usage : Option Usage := none
  choices : List Choice := []
deriving DecidableEq, Repr

/-- The assembler's whole mutable state: the accumulated message
(`accumulatedMessage`), the tool-call accumulator table
(`currentToolCalls`), the heap of allocated ToolCall objects (`store`),
and a counter feeding the generated-id source (`uuidv4`).
`current` is the accumulator table: an association list from tool-call
`index` to allocation id, kept sorted by index because `Object.values` on
an object with integer-like keys iterates them in ascending numeric order. -/
structure AsmState where
  id : String
  message_id : Option String := none
  content : String := ""
  reasoning_content : Option String := none
  tool_calls : Option (List Nat) := none
  tool_result : Option (List ToolResult) := none
  parts : List PartR := []
  interrupt_info : Option InterruptInfo := none
  interrupted : Option Bool := none
  usage : Option Usage := none
  store : List ToolCall := []
  current : List (Nat × Nat) := []
  fresh : Nat := 0
deriving DecidableEq, Repr

/-- The placeholder assistant message created before streaming begins
(`initialAssistantMsg`): empty content, empty parts, everything else unset. -/
def initialAssistantMsg (assistantId : String) : AsmState := { id := assistantId }

/-- Lookup in the accumulator table (`currentToolCalls[i]`). -/
def lookupIdx : List (Nat × Nat) → Nat → Option Nat
  | [], _ => none
  | (k, v) :: rest, i => if k = i then some v else lookupIdx rest i

/-- Assignment `currentToolCalls[i] = aid`, keeping the table sorted by index
to mirror the ascending integer-key iteration order of `Object.values`. -/
def insertIdx : List (Nat × Nat) → Nat → Nat → List (Nat × Nat)
  | [], i, aid => [(i, aid)]
  | (k, v) :: rest, i, aid =>
    if i < k then (i, aid) :: (k, v) :: rest
    else if i = k then (i, aid) :: rest
    else (k, v) :: insertIdx rest i aid

/-- `Object.values(currentToolCalls)`: the allocation ids in ascending index order. -/
def valuesIdx (cur : List (Nat × Nat)) : List Nat := cur.map Prod.snd

/-- Mutate the heap object at allocation id `aid` in place. -/
def modifyNth (f : ToolCall → ToolCall) : List ToolCall → Nat → List ToolCall
  | [], _ => []
  | tc :: rest, 0 => f tc :: rest
  | tc :: rest, Nat.succ n => tc :: modifyNth f rest n

/-- The generated-id source standing in for `uuidv4()`, fed by the state's counter. -/
def genId (k : Nat) : String := "generated-" ++ toString k

/-- Mutation phase for one tool-call fragment (the `delta.tool_calls.forEach`
body, plan lines 557-567): create a fresh accumulator when the fragment
carries a truthy `id` or when no accumulator exists for this index, then
append the fragment's `function.name` / `function.arguments` pieces. -/
def mutOne (st : AsmState) (tc : ToolCallChunk) : AsmState :=
  let st1 :=
    if strTruthy tc.id ∨ lookupIdx st.current tc.index = none then
      { st with
        store := st.store ++
          [{ id := if strTruthy tc.id then tc.id.getD "" else genId st.fresh,
             function := { name := "", arguments := "" } }],
        current := insertIdx st.current tc.index st.store.length,
        fresh := if strTruthy tc.id then st.fresh else st.fresh + 1 }
    else st
  match lookupIdx st1.current tc.index with
  | none => st1
  | some aid =>
    let st2 :=
      if strTruthy (tc.function.bind ToolFnChunk.name) then
        { st1 with store := (modifyNth (fun t =>
            { t with function := { t.function with
                name := t.function.name ++ (tc.function.bind ToolFnChunk.name).getD "" } })
          st1.store aid) }
      else st1
    if strTruthy (tc.function.bind ToolFnChunk.arguments) then
      { st2 with store := (modifyNth (fun t =>
          { t with function := { t.function with
              arguments := t.function.arguments ++ (tc.function.bind ToolFnChunk.arguments).getD "" } })
        st2.store aid) }
    else st2

/-- Mutation phase over all fragments of a delta (plan lines 556-568). -/
def mutPhase (st : AsmState) (tcs : List ToolCallChunk) : AsmState :=
  tcs.foldl mutOne st

/-- Coalesce-append a reasoning fragment onto the parts list (plan lines 580-586). -/
def pushCoalesceReasoning (ps : List PartR) (c : String) : List PartR :=
  match ps.getLast? with
  | some (PartR.reasoning t) => ps.dropLast ++ [PartR.reasoning (t ++ c)]
  | _ => ps ++ [PartR.reasoning c]

/-- Reasoning handler (plan lines 580-588): coalesce into the tail reasoning part and extend the denormalized `reasoning_content`. -/
def reasoningPhase (st : AsmState) (d : Delta) : AsmState :=
  if strTruthy d.reasoning_content then
    let c := d.reasoning_content.getD ""
    { st with parts := pushCoalesceReasoning st.parts c,
              reasoning_content := some (st.reasoning_content.getD "" ++ c) }
  else st

/-- The structural-phase `forEach` (plan lines 602-607): for each fragment,
push the accumulator's reference into the tail tool part unless that very
reference is already there (`includes` is reference equality). -/
def pushIds (cur : List (Nat × Nat)) (ids0 : List Nat) (tcs : List ToolCallChunk) : List Nat :=
  tcs.foldl (fun ids tc =>
    match lookupIdx cur tc.index with
    | some aid => if aid ∈ ids then ids else ids ++ [aid]
    | none => ids) ids0

/-- Structural phase for tool calls (plan lines 591-609): reuse the tail
`tool_calls` part or push a new one, add the touched accumulators' references
to it, and reset the denormalized `tool_calls` to `Object.values(currentToolCalls)`. -/
def structPhase (st : AsmState) (tcs : List ToolCallChunk) : AsmState :=
  let front :=
    match st.parts.getLast? with
    | some (PartR.toolCalls _) => st.parts.dropLast
    | _ => st.parts
  let startIds :=
    match st.parts.getLast? with
    | some (PartR.toolCalls ids) => ids
    | _ => []
  { st with parts := front ++ [PartR.toolCalls (pushIds st.current startIds tcs)],
            tool_calls := some (valuesIdx st.current) }

/-- Coalesce-append a tool result onto the parts list (plan lines 613-623). -/
def pushCoalesceToolResult (ps : List PartR) (r : ToolResult) : List PartR :=
  match ps.getLast? with
  | some (PartR.toolResult rs) => ps.dropLast ++ [PartR.toolResult (rs ++ [r])]
  | _ => ps ++ [PartR.toolResult [r]]

/-- Tool-result handler (plan lines 613-628): coalesce into the tail tool_result part and extend the denormalized list. -/
def toolResultPhase (st : AsmState) (d : Delta) : AsmState :=
  match d.tool_result with
  | some r =>
    { st with parts := pushCoalesceToolResult st.parts r,
              tool_result := some (st.tool_result.getD [] ++ [r]) }
  | none => st

/-- Coalesce-append a text fragment onto the parts list (plan lines 631-637). -/
def pushCoalesceText (ps : List PartR) (c : String) : List PartR :=
  match ps.getLast? with
  | some (PartR.text t) => ps.dropLast ++ [PartR.text (t ++ c)]
  | _ => ps ++ [PartR.text c]

/-- Content handler (plan lines 631-639): coalesce into the tail text part and extend the denormalized `content`. -/
def contentPhase (st : AsmState) (d : Delta) : AsmState :=
  if strTruthy d.content then
    let c := d.content.getD ""
    { st with parts := pushCoalesceText st.parts c,
              content := st.content ++ c }
  else st

/-- Interrupt handler (plan lines 641-644): set `interrupt_info` and reset `interrupted` to false. -/
def interruptPhase (st : AsmState) (d : Delta) : AsmState :=
  match d.interrupt_info with
  | some ii => { st with interrupt_info := some ii, interrupted := some false }
  | none => st

/-- Apply one delta in the source's fixed order (plan lines 555-644):
tool-call mutation, reasoning, tool-call structural phase, tool result,
content, interrupt.  An empty `tool_calls` array is truthy in JS, so its
presence alone triggers both tool-call phases. -/
def applyDelta (st : AsmState) (d : Delta) : AsmState :=
  let stA := match d.tool_calls with
    | some tcs => mutPhase st tcs
    | none => st
  let stB := reasoningPhase stA d
  let stC := match d.tool_calls with
    | some tcs => structPhase stB tcs
    | none => stB
  let stD := toolResultPhase stC d
  let stE := contentPhase stD d
  interruptPhase stE d

/-- Identity-field step (plan lines 536-541): adopt the frame's `id` / `message_id` when truthy and different from the current value. -/
def applyIdentity (st : AsmState) (ch : Chunk) : AsmState :=
  let st1 := match ch.id with
    | some cid =>
      if cid.isEmpty then st
      else if st.id = cid then st else { st with id := cid }
    | none => st
  match ch.message_id with
  | some mid =>
    if mid.isEmpty then st1
    else if st1.message_id = some mid then st1 else { st1 with message_id := some mid }
  | none => st1

/-- Element-wise sum of two usage records. -/
def addUsage (a b : Usage) : Usage :=
  { prompt_tokens := a.prompt_tokens + b.prompt_tokens,
    completion_tokens := a.completion_tokens + b.completion_tokens,
    total_tokens := a.total_tokens + b.total_tokens }

/-- The all-zero usage record the code initializes with on first occurrence. -/
def zeroUsage : Usage := { prompt_tokens := 0, completion_tokens := 0, total_tokens := 0 }

/-- Usage step (plan lines 543-550): initialize to zero on first occurrence, then add element-wise. -/
def applyUsage (st : AsmState) (ch : Chunk) : AsmState :=
  match ch.usage with
  | some u => { st with usage := some (addUsage (st.usage.getD zeroUsage) u) }
  | none => st

/-- `chunk.choices[0]?.delta`, `if (!delta) continue` (plan lines 552-553). -/
def deltaOf (ch : Chunk) : Option Delta :=
  ch.choices.head?.bind Choice.delta

/-- The whole loop body for one frame (plan lines 534-648). -/
def applyChunk (st : AsmState) (ch : Chunk) : AsmState :=
  let st1 := applyIdentity st ch
  let st2 := applyUsage st1 ch
  match deltaOf ch with
  | some d => applyDelta st2 d
  | none => st2

/-- Fold a whole frame sequence, in arrival order. -/
def applyChunks (st : AsmState) (chs : List Chunk) : AsmState := chs.foldl applyChunk st

/-- Dereference an allocation id into the heap. -/
def resolveToolCall (store : List ToolCall) (aid : Nat) : ToolCall :=
  (store.get? aid).getD { id := "", function := { name := "", arguments := "" } }

/-- Resolve a stored part into the value the renderer sees. -/
def resolvePart (store : List ToolCall) : PartR → MessagePart
  | PartR.reasoning c => MessagePart.reasoning c
  | PartR.toolCalls ids => MessagePart.tool_calls (ids.map (resolveToolCall store))
  | PartR.toolResult rs => MessagePart.tool_result rs
  | PartR.text c => MessagePart.text c

/-- The message's parts as renderer-visible values. -/
def resolvedParts (st : AsmState) : List MessagePart := st.parts.map (resolvePart st.store)

/-- The denormalized `tool_calls` field as renderer-visible values. -/
def resolvedToolCalls (st : AsmState) : List ToolCall :=
  (st.tool_calls.getD []).map (resolveToolCall st.store)

/-! Input builders: frames carrying a single payload field, used as concrete
test inputs for the testable properties. -/

/-- A frame whose only payload is a content fragment. -/
def mkContentChunk (c : String) : Chunk :=
  { choices := [{ delta := some { content := some c } }] }

/-- A frame whose only payload is a reasoning fragment. -/
def mkReasoningChunk (c : String) : Chunk :=
  { choices := [{ delta := some { reasoning_content := some c } }] }

/-- A frame whose only payload is a list of tool-call fragments. -/
def mkToolChunk (tcs : List ToolCallChunk) : Chunk :=
  { choices := [{ delta := some { tool_calls := some tcs } }] }

/-- A frame whose only payload is a usage record. -/
def mkUsageChunk (p c t : Nat) : Chunk :=
  { usage := some { prompt_tokens := p, completion_tokens := c, total_tokens := t } }

/-! Spec-side projections of the parts list, used to state the
denormalization-consistency invariant. -/

/-- The text contribution of one part. -/
def textOf : PartR → String
  | PartR.text c => c
  | _ => ""

/-- Concatenation, in order, of the contents of all text parts. -/
def textConcat : List PartR → String
  | [] => ""
  | p :: ps => textOf p ++ textConcat ps

/-- The reasoning contribution of one part. -/
def reasonOf : PartR → String
  | PartR.reasoning c => c
  | _ => ""

/-- Concatenation, in order, of the contents of all reasoning parts. -/
def reasoningConcat : List PartR → String
  | [] => ""
  | p :: ps => reasonOf p ++ reasoningConcat ps

/-- The tool-result contribution of one part. -/
def resultsOf : PartR → List ToolResult
  | PartR.toolResult rs => rs
  | _ => []

/-- In-order concatenation of the lists of all tool_result parts. -/
def toolResultConcat : List PartR → List ToolResult
  | [] => []
  | p :: ps => resultsOf p ++ toolResultConcat ps

/-- Whether the accumulator reference `aid` appears in some `tool_calls` part of `ps`. -/
def reflectedIn (aid : Nat) (ps : List PartR) : Prop :=
  ∃ ids, PartR.toolCalls ids ∈ ps ∧ aid ∈ ids

/-- The denormalization-consistency invariant: the denormalized fields agree
with the parts list, the denormalized `tool_calls` is the index-ordered
accumulator table, and every live accumulator reference is reflected in
some `tool_calls` part. -/
def denormInv (st : AsmState) : Prop :=
  st.content = textConcat st.parts
  ∧ st.reasoning_content.getD "" = reasoningConcat st.parts
  ∧ st.tool_result.getD [] = toolResultConcat st.parts
  ∧ st.tool_calls.getD [] = valuesIdx st.current
  ∧ List.Pairwise (fun a b => a.1 < b.1) st.current
  ∧ ∀ aid ∈ valuesIdx st.current, reflectedIn aid st.parts

/-!
## The SSE frame decoder

Translation of the read loop of `streamChatCompletion`
(src/unnamed/part_010, lines 29-58).  The raw byte stream is modelled as a
list of character-list chunks (the UTF-8 `TextDecoder` is outside the
model), and `JSON.parse` is an abstract parameter `parse` returning `none`
exactly on the inputs where `JSON.parse` throws.
-/

/-- Split a character list at every newline, like `String.prototype.split` with separator `"\n"`: it always returns at least one (possibly empty) piece, and a trailing newline yields a trailing empty piece. -/
def splitNL : List Char → List (List Char)
  | [] => [[]]
  | c :: cs =>
    if c = '\n' then [] :: splitNL cs
    else
      match splitNL cs with
      | [] => [[c]]
      | l :: ls => (c :: l) :: ls

/-- Merge a leftover prefix into the first piece of a split (the buffered tail of one chunk joined with the first line piece of the next). -/
def mergeFirst (x : List Char) (v : List (List Char)) : List (List Char) :=
  match v with
  | [] => [x]
  | m :: ms => (x ++ m) :: ms

/-- The model of `String.prototype.trim`: strip whitespace from both ends. -/
def trimChars (l : List Char) : List Char :=
  ((l.dropWhile Char.isWhitespace).reverse.dropWhile Char.isWhitespace).reverse

/-- The `data: ` marker. -/
def sseMarker : List Char := "data: ".toList

/-- The completion sentinel line. -/
def sseSentinel : List Char := "data: [DONE]".toList

/-- The per-line body of the decoder loop (part_010 lines 43-57): trim the
line; skip it when blank or equal to the sentinel; if the trimmed line
starts with the marker, strip the 6-character prefix and parse, yielding
nothing when the parse fails; otherwise skip. -/
def emitLine (parse : List Char → Option α) (line : List Char) : Option α :=
  let t := trimChars line
  if t = [] ∨ t = sseSentinel then none
  else if sseMarker.isPrefixOf t then parse (t.drop 6)
  else none

/-- One iteration of the read loop (part_010 lines 33-58): append the chunk
to the buffer, split into lines, keep the last (incomplete) line as the new
buffer, and emit the frames of the complete lines in order. -/
def decodeStep (parse : List Char → Option α) (acc : List α × List Char)
    (chunk : List Char) : List α × List Char :=
  let lines := splitNL (acc.2 ++ chunk)
  (acc.1 ++ lines.dropLast.filterMap (emitLine parse), (lines.getLast?).getD [])

/-- The frames yielded by `streamChatCompletion` over a chunked input; at
end-of-data the remaining buffer is discarded (the loop breaks on `done`
before processing it). -/
def streamDecode (parse : List Char → Option α) (chunks : List (List Char)) : List α :=
  (chunks.foldl (decodeStep parse) ([], [])).1

/-- Modelled from the claim's own words, for comparison with the source: a
line yields a frame exactly when it is non-blank, not the sentinel, starts
(un-trimmed) with the `data: ` marker, and its remainder parses. -/
def claimEmitLine (parse : List Char → Option α) (line : List Char) : Option α :=
  if line = [] ∨ line = sseSentinel then none
  else if sseMarker.isPrefixOf line then parse (line.drop 6)
  else none

/-- A concrete stand-in for `JSON.parse` in counterexamples: parses exactly the text `0`. -/
def pNat : List Char → Option Nat :=
  fun l => if l = ['0'] then some 0 else none

/-!
## The render scheduler

Translation of `scheduleUpdate` (plan lines 509-532), of the per-frame
`scheduleUpdate()` call (line 647), and of the post-stream cancel + final
update (lines 650-654).  `requestAnimationFrame` is modelled as a host
holding at most one armed callback, identified by a fresh numeric handle;
`cancelAnimationFrame h` disarms the callback only when `h` is its handle.
The wall-clock test `now - lastUpdateTime >= MIN_UPDATE_INTERVAL` is
modelled by the Boolean `elapsed` carried by each fire event, since only
the outcome of the comparison is observable.
-/

/-- The scheduler's state: the accumulated message, the local variables of
`handleSendMessage` (`rafId`, `pendingUpdate`), the host's armed callback,
a handle counter, and the list of published snapshots (`updateLastMessage` calls). -/
structure SchedState where
  msg : AsmState
  pendingUpdate : Bool := false
  rafId : Option Nat := none
  armed : Option Nat := none
  nextRaf : Nat := 0
  published : List AsmState := []
deriving DecidableEq, Repr

/-- `cancelAnimationFrame h`: disarm the host's callback when `h` is its handle. -/
def cancelRaf (s : SchedState) (h : Nat) : SchedState :=
  if s.armed = some h then { s with armed := none } else s

/-- `scheduleUpdate` (plan lines 510-517): bail out when a publish is
pending; otherwise set the pending flag, cancel the callback named by
`rafId` if any, and arm a fresh callback recording its handle in `rafId`. -/
def scheduleUpdate (s : SchedState) : SchedState :=
  if s.pendingUpdate then s
  else
    let s1 := { s with pendingUpdate := true }
    let s2 := match s1.rafId with
      | some h => cancelRaf s1 h
      | none => s1
    { s2 with armed := some s2.nextRaf, rafId := some s2.nextRaf, nextRaf := s2.nextRaf + 1 }

/-- The body of the animation-frame callback (plan lines 518-531): when the
minimum interval has elapsed, publish a snapshot and clear the pending flag;
otherwise clear the flag and re-arm via `scheduleUpdate`.  Either way the
body ends by resetting `rafId` to null, which in the re-arm path overwrites
the handle `scheduleUpdate` just recorded. -/
def rafCallback (s : SchedState) (elapsed : Bool) : SchedState :=
  let s1 :=
    if elapsed then { s with published := s.published ++ [s.msg], pendingUpdate := false }
    else scheduleUpdate { s with pendingUpdate := false }
  { s1 with rafId := none }

/-- Fire the host's armed callback, if any: the host dequeues it and runs its body. -/
def fireRaf (s : SchedState) (elapsed : Bool) : SchedState :=
  match s.armed with
  | some _ => rafCallback { s with armed := none } elapsed
  | none => s

/-- An event during streaming: a frame arriving (apply it, then `scheduleUpdate()`, plan lines 534-648) or the armed animation-frame callback firing. -/
inductive StreamEv where
  | frame (ch : Chunk)
  | raf (elapsed : Bool)
deriving DecidableEq, Repr

/-- One event step of the cooperative single-threaded execution. -/
def stepEv (s : SchedState) : StreamEv → SchedState
  | StreamEv.frame ch => scheduleUpdate { s with msg := applyChunk s.msg ch }
  | StreamEv.raf e => fireRaf s e

/-- Run a streaming execution from a given scheduler state. -/
def runEvents (s : SchedState) (evs : List StreamEv) : SchedState := evs.foldl stepEv s

/-- The initial scheduler state around a placeholder assistant message. -/
def initSched (st0 : AsmState) : SchedState := { msg := st0 }

/-- The post-stream block (plan lines 650-654): cancel the callback named by `rafId` if that handle is non-null, then publish the accumulated message unconditionally. -/
def finalFlush (s : SchedState) : SchedState :=
  let s1 := match s.rafId with
    | some h => cancelRaf s h
    | none => s
  { s1 with published := s1.published ++ [s1.msg] }

/-- Fires of a callback still armed after stream end (nothing mutates `msg` any more). -/
def runPost (s : SchedState) (fires : List Bool) : SchedState := fires.foldl fireRaf s

/-- The frames carried by an event trace, in arrival order. -/
def chunksOfEvents (evs : List StreamEv) : List Chunk :=
  evs.filterMap (fun ev => match ev with
    | StreamEv.frame ch => some ch
    | StreamEv.raf _ => none)

/-- The content fragment a frame contributes (empty when the frame has no delta or a falsy `content`). -/
def contentFragOf (ch : Chunk) : String :=
  match deltaOf ch with
  | some d => if strTruthy d.content then d.content.getD "" else ""
  | none => ""

/-- Concatenation of all content fragments of a frame sequence. -/
def contentConcatChunks : List Chunk → String
  | [] => ""
  | ch :: chs => contentFragOf ch ++ contentConcatChunks chs

/-!
## Tool-call/result correlation

Translation of `completedToolIds` (src/components/MessageList.tsx, lines
155-180).  The renderer-level message carries the fields the scan reads;
the JS `Set` is modelled as a list consumed only through membership, for
which insertion order and deduplication are irrelevant.
-/

/-- A message as the `MessageList` renderer sees it (src/types.ts `Message`), restricted to the fields `completedToolIds` reads. -/
structure Message where
  role : String
  content : String := ""
  tool_call_id : Option String := none
  tool_calls : Option (List ToolCall) := none
  tool_result : Option (List ToolResult) := none
  parts : Option (List MessagePart) := none
deriving DecidableEq, Repr

/-- The truthy `tool_call_id`s of a tool-result list (`if (res.tool_call_id) ids.add(...)`). -/
def resultIds (rs : List ToolResult) : List String :=
  rs.filterMap (fun r => if r.tool_call_id.isEmpty then none else some r.tool_call_id)

/-- The truthy `tool_call_id`s contributed by one part (only `tool_result` parts contribute). -/
def partResultIds : MessagePart → List String
  | MessagePart.tool_result rs => resultIds rs
  | _ => []

/-- The ids one message contributes to the completed set: its legacy
`tool_result` list, its `tool_result` parts, and its own `tool_call_id`
when its role is `tool` or `tool_result` (MessageList.tsx lines 157-178). -/
def messageCompletedIds (msg : Message) : List String :=
  resultIds (msg.tool_result.getD [])
    ++ (msg.parts.getD []).foldl (fun a p => a ++ partResultIds p) []
    ++ (if (msg.role = "tool" ∨ msg.role = "tool_result")
           ∧ ¬(msg.tool_call_id.getD "").isEmpty
        then [msg.tool_call_id.getD ""] else [])

/-- The completed-tool-call-id set, recomputed by scanning the full message history (MessageList.tsx lines 155-180). -/
def completedToolIds (msgs : List Message) : List String :=
  msgs.foldl (fun ids msg => ids ++ messageCompletedIds msg) []

/-- Whether a message carries a tool result with the given (truthy) id, through any of the three channels the scan reads. -/
def carriesResult (msg : Message) (tid : String) : Bool :=
  tid ∈ messageCompletedIds msg

/-- Whether a message holds a tool call with the given id (legacy field or a `tool_calls` part). -/
def hasToolCall (msg : Message) (tid : String) : Bool :=
  tid ∈ (msg.tool_calls.getD []).map ToolCall.id
    ∨ (msg.parts.getD []).any (fun p => match p with
        | MessagePart.tool_calls tcs => tid ∈ tcs.map ToolCall.id
        | _ => false)

/-- Modelled from the claim's own words, for comparison with the source: a
tool call with id `tid` carried by `msgs[i]` is completed exactly when some
strictly later message `msgs[j]`, `i < j`, carries a matching tool result. -/
def claimCompleted (msgs : List Message) (tid : String) : Bool :=
  (List.range msgs.length).any (fun i =>
    (List.range msgs.length).any (fun j =>
      decide (i < j)
        && (match msgs.get? i with
            | some m => hasToolCall m tid
            | none => false)
        && (match msgs.get? j with
            | some m => carriesResult m tid
            | none => false)))

/-! Concrete input fixtures for the testable properties. -/

/-- The three-fragment tool-call delta sequence of the tool-call accumulation property: id only on the first fragment, name split as `ge` / `t`, then the arguments. -/
def c2Chunks : List Chunk :=
  [mkToolChunk [{ index := 0, id := some "a", function := some { name := some "ge" } }],
   mkToolChunk [{ index := 0, function := some { name := some "t" } }],
   mkToolChunk [{ index := 0, function := some { arguments := some "{}" } }]]

/-- Two fragments at the same index 0, both carrying an explicit id. -/
def c5Chunks : List Chunk :=
  [mkToolChunk [{ index := 0, id := some "a", function := some { name := some "x" } }],
   mkToolChunk [{ index := 0, id := some "b" }]]

/-- A state whose accumulator table already holds index 0 (an empty accumulator with id `a`). -/
def wStExisting : AsmState :=
  { id := "msg", store := [{ id := "a", function := { name := "", arguments := "" } }],
    current := [(0, 0)] }

/-- A state whose accumulator at index 0 already holds accumulated content. -/
def wStContent : AsmState :=
  { id := "msg", store := [{ id := "a", function := { name := "search", arguments := "xy" } }],
    current := [(0, 0)] }

/-- A fragment at index 0 with no id and no function payload. -/
def wFragNoId : ToolCallChunk := { index := 0 }

/-- A fragment at index 0 carrying the explicit id `b` and nothing else. -/
def wFragB : ToolCallChunk := { index := 0, id := some "b" }

/-- A state already holding usage totals. -/
def wStUsage : AsmState :=
  { id := "msg", usage := some { prompt_tokens := 10, completion_tokens := 1, total_tokens := 11 } }

/-- A state with one text part. -/
def wStParts : AsmState := { id := "msg", content := "hi", parts := [PartR.text "hi"] }

/-- A frame with empty choices carrying a fresh id and a usage record. -/
def wChIdUsage : Chunk :=
  { id := some "new-id", usage := some { prompt_tokens := 2, completion_tokens := 1, total_tokens := 3 } }

/-- A completed tool result correlated to the tool-call id `a`. -/
def trA : ToolResult := { tool_call_id := "a", name := "search", output := "[]", status := "ok" }

/-- A tool call with id `a`. -/
def tcA : ToolCall := { id := "a", function := { name := "search", arguments := "{}" } }

/-- A message carrying (only) the tool result for `a` in its legacy list. -/
def c9EarlyResult : Message := { role := "assistant", tool_result := some [trA] }

/-- A message carrying the tool call `a`. -/
def c9CallMsg : Message := { role := "assistant", tool_calls := some [tcA] }

/-- A history in which the tool result for `a` appears strictly before the message holding the call. -/
def c9History : List Message := [c9EarlyResult, c9CallMsg]

/-!
## Helper lemmas

Shape lemmas: each processing phase can change only the fields it writes.
-/

theorem applyIdentity_shape (st : AsmState) (ch : Chunk) :
    ∃ i m, applyIdentity st ch = { st with id := i, message_id := m } := by
  unfold applyIdentity
  rcases ch with ⟨cid, mid, u, cs⟩
  cases cid <;> cases mid <;> dsimp <;> (repeat' split) <;> exact ⟨_, _, rfl⟩

theorem applyUsage_shape (st : AsmState) (ch : Chunk) :
    ∃ u, applyUsage st ch = { st with usage := u } := by
  unfold applyUsage
  rcases ch with ⟨cid, mid, us, cs⟩
  cases us <;> dsimp <;> exact ⟨_, rfl⟩

theorem mutOne_shape (st : AsmState) (tc : ToolCallChunk) :
    ∃ s c f, mutOne st tc = { st with store := s, current := c, fresh := f } := by
  unfold mutOne
  dsimp only
  repeat' split
  all_goals exact ⟨_, _, _, rfl⟩

theorem mutPhase_shape (st : AsmState) (tcs : List ToolCallChunk) :
    ∃ s c f, mutPhase st tcs = { st with store := s, current := c, fresh := f } := by
  induction tcs generalizing st with
  | nil => exact ⟨st.store, st.current, st.fresh, rfl⟩
  | cons tc tcs ih =>
    obtain ⟨s, c, f, h⟩ := mutOne_shape st tc
    obtain ⟨s', c', f', h'⟩ := ih { st with store := s, current := c, fresh := f }
    refine ⟨s', c', f', ?_⟩
    show mutPhase (mutOne st tc) tcs = _
    rw [h, h']

theorem reasoningPhase_shape (st : AsmState) (d : Delta) :
    ∃ p r, reasoningPhase st d = { st with parts := p, reasoning_content := r } := by
  unfold reasoningPhase
  split <;> exact ⟨_, _, rfl⟩

theorem structPhase_shape (st : AsmState) (tcs : List ToolCallChunk) :
    ∃ p t, structPhase st tcs = { st with parts := p, tool_calls := t } := by
  unfold structPhase
  exact ⟨_, _, rfl⟩

theorem toolResultPhase_shape (st : AsmState) (d : Delta) :
    ∃ p t, toolResultPhase st d = { st with parts := p, tool_result := t } := by
  unfold toolResultPhase
  split <;> exact ⟨_, _, rfl⟩

theorem contentPhase_shape (st : AsmState) (d : Delta) :
    ∃ p c, contentPhase st d = { st with parts := p, content := c } := by
  unfold contentPhase
  split <;> exact ⟨_, _, rfl⟩

theorem interruptPhase_shape (st : AsmState) (d : Delta) :
    ∃ i b, interruptPhase st d = { st with interrupt_info := i, interrupted := b } := by
  unfold interruptPhase
  split <;> exact ⟨_, _, rfl⟩

/-! Value lemmas: what each phase writes. -/

theorem reasoningPhase_pos (st : AsmState) (d : Delta) (h : strTruthy d.reasoning_content = true) :
    reasoningPhase st d =
      { st with parts := pushCoalesceReasoning st.parts (d.reasoning_content.getD ""),
                reasoning_content := some (st.reasoning_content.getD "" ++ d.reasoning_content.getD "") } := by
  unfold reasoningPhase
  rw [if_pos h]

theorem reasoningPhase_neg (st : AsmState) (d : Delta) (h : strTruthy d.reasoning_content = false) :
    reasoningPhase st d = st := by
  unfold reasoningPhase
  rw [if_neg (by simp [h])]

theorem contentPhase_pos (st : AsmState) (d : Delta) (h : strTruthy d.content = true) :
    contentPhase st d =
      { st with parts := pushCoalesceText st.parts (d.content.getD ""),
                content := st.content ++ d.content.getD "" } := by
  unfold contentPhase
  rw [if_pos h]

theorem contentPhase_neg (st : AsmState) (d : Delta) (h : strTruthy d.content = false) :
    contentPhase st d = st := by
  unfold contentPhase
  rw [if_neg (by simp [h])]

theorem toolResultPhase_some (st : AsmState) (d : Delta) (r : ToolResult)
    (h : d.tool_result = some r) :
    toolResultPhase st d =
      { st with parts := pushCoalesceToolResult st.parts r,
                tool_result := some (st.tool_result.getD [] ++ [r]) } := by
  unfold toolResultPhase
  rw [h]

theorem toolResultPhase_none (st : AsmState) (d : Delta) (h : d.tool_result = none) :
    toolResultPhase st d = st := by
  unfold toolResultPhase
  rw [h]

theorem interruptPhase_none (st : AsmState) (d : Delta) (h : d.interrupt_info = none) :
    interruptPhase st d = st := by
  unfold interruptPhase
  rw [h]

theorem structPhase_parts (st : AsmState) (tcs : List ToolCallChunk) :
    (structPhase st tcs).parts =
      (match st.parts.getLast? with
        | some (PartR.toolCalls _) => st.parts.dropLast
        | _ => st.parts) ++
      [PartR.toolCalls (pushIds st.current
        (match st.parts.getLast? with
          | some (PartR.toolCalls ids) => ids
          | _ => []) tcs)] := rfl

theorem structPhase_tool_calls (st : AsmState) (tcs : List ToolCallChunk) :
    (structPhase st tcs).tool_calls = some (valuesIdx st.current) := rfl

/-! Concatenation lemmas for the spec-side projections. -/

theorem textConcat_append (l₁ l₂ : List PartR) :
    textConcat (l₁ ++ l₂) = textConcat l₁ ++ textConcat l₂ := by
  induction l₁ with
  | nil => simp [textConcat]
  | cons p ps ih => simp [textConcat, ih, String.append_assoc]

theorem reasoningConcat_append (l₁ l₂ : List PartR) :
    reasoningConcat (l₁ ++ l₂) = reasoningConcat l₁ ++ reasoningConcat l₂ := by
  induction l₁ with
  | nil => simp [reasoningConcat]
  | cons p ps ih => simp [reasoningConcat, ih, String.append_assoc]

theorem toolResultConcat_append (l₁ l₂ : List PartR) :
    toolResultConcat (l₁ ++ l₂) = toolResultConcat l₁ ++ toolResultConcat l₂ := by
  induction l₁ with
  | nil => simp [toolResultConcat]
  | cons p ps ih => simp [toolResultConcat, ih]

/-! Field-preservation lemmas: each phase leaves the fields it does not write untouched. -/

@[simp] theorem applyIdentity_content (st : AsmState) (ch : Chunk) :
    (applyIdentity st ch).content = st.content := by
  obtain ⟨i, m, h⟩ := applyIdentity_shape st ch; rw [h]

@[simp] theorem applyIdentity_reasoning_content (st : AsmState) (ch : Chunk) :
    (applyIdentity st ch).reasoning_content = st.reasoning_content := by
  obtain ⟨i, m, h⟩ := applyIdentity_shape st ch; rw [h]

@[simp] theorem applyIdentity_tool_calls (st : AsmState) (ch : Chunk) :
    (applyIdentity st ch).tool_calls = st.tool_calls := by
  obtain ⟨i, m, h⟩ := applyIdentity_shape st ch; rw [h]

@[simp] theorem applyIdentity_tool_result (st : AsmState) (ch : Chunk) :
    (applyIdentity st ch).tool_result = st.tool_result := by
  obtain ⟨i, m, h⟩ := applyIdentity_shape st ch; rw [h]

@[simp] theorem applyIdentity_parts (st : AsmState) (ch : Chunk) :
    (applyIdentity st ch).parts = st.parts := by
  obtain ⟨i, m, h⟩ := applyIdentity_shape st ch; rw [h]

@[simp] theorem applyIdentity_current (st : AsmState) (ch : Chunk) :
    (applyIdentity st ch).current = st.current := by
  obtain ⟨i, m, h⟩ := applyIdentity_shape st ch; rw [h]

@[simp] theorem applyIdentity_store (st : AsmState) (ch : Chunk) :
    (applyIdentity st ch).store = st.store := by
  obtain ⟨i, m, h⟩ := applyIdentity_shape st ch; rw [h]

@[simp] theorem applyIdentity_usage (st : AsmState) (ch : Chunk) :
    (applyIdentity st ch).usage = st.usage := by
  obtain ⟨i, m, h⟩ := applyIdentity_shape st ch; rw [h]

@[simp] theorem applyUsage_content (st : AsmState) (ch : Chunk) :
    (applyUsage st ch).content = st.content := by
  obtain ⟨u, h⟩ := applyUsage_shape st ch; rw [h]

@[simp] theorem applyUsage_reasoning_content (st : AsmState) (ch : Chunk) :
    (applyUsage st ch).reasoning_content = st.reasoning_content := by
  obtain ⟨u, h⟩ := applyUsage_shape st ch; rw [h]

@[simp] theorem applyUsage_tool_calls (st : AsmState) (ch : Chunk) :
    (applyUsage st ch).tool_calls = st.tool_calls := by
  obtain ⟨u, h⟩ := applyUsage_shape st ch; rw [h]

@[simp] theorem applyUsage_tool_result (st : AsmState) (ch : Chunk) :
    (applyUsage st ch).tool_result = st.tool_result := by
  obtain ⟨u, h⟩ := applyUsage_shape st ch; rw [h]

@[simp] theorem applyUsage_parts (st : AsmState) (ch : Chunk) :
    (applyUsage st ch).parts = st.parts := by
  obtain ⟨u, h⟩ := applyUsage_shape st ch; rw [h]

@[simp] theorem applyUsage_current (st : AsmState) (ch : Chunk) :
    (applyUsage st ch).current = st.current := by
  obtain ⟨u, h⟩ := applyUsage_shape st ch; rw [h]

@[simp] theorem applyUsage_store (st : AsmState) (ch : Chunk) :
    (applyUsage st ch).store = st.store := by
  obtain ⟨u, h⟩ := applyUsage_shape st ch; rw [h]

@[simp] theorem applyUsage_id (st : AsmState) (ch : Chunk) :
    (applyUsage st ch).id = st.id := by
  obtain ⟨u, h⟩ := applyUsage_shape st ch; rw [h]

@[simp] theorem applyUsage_message_id (st : AsmState) (ch : Chunk) :
    (applyUsage st ch).message_id = st.message_id := by
  obtain ⟨u, h⟩ := applyUsage_shape st ch; rw [h]

@[simp] theorem mutPhase_content (st : AsmState) (tcs : List ToolCallChunk) :
    (mutPhase st tcs).content = st.content := by
  obtain ⟨s, c, f, h⟩ := mutPhase_shape st tcs; rw [h]

@[simp] theorem mutPhase_reasoning_content (st : AsmState) (tcs : List ToolCallChunk) :
    (mutPhase st tcs).reasoning_content = st.reasoning_content := by
  obtain ⟨s, c, f, h⟩ := mutPhase_shape st tcs; rw [h]

@[simp] theorem mutPhase_tool_calls (st : AsmState) (tcs : List ToolCallChunk) :
    (mutPhase st tcs).tool_calls = st.tool_calls := by
  obtain ⟨s, c, f, h⟩ := mutPhase_shape st tcs; rw [h]

@[simp] theorem mutPhase_tool_result (st : AsmState) (tcs : List ToolCallChunk) :
    (mutPhase st tcs).tool_result = st.tool_result := by
  obtain ⟨s, c, f, h⟩ := mutPhase_shape st tcs; rw [h]

@[simp] theorem mutPhase_parts (st : AsmState) (tcs : List ToolCallChunk) :
    (mutPhase st tcs).parts = st.parts := by
  obtain ⟨s, c, f, h⟩ := mutPhase_shape st tcs; rw [h]

@[simp] theorem mutPhase_usage (st : AsmState) (tcs : List ToolCallChunk) :
    (mutPhase st tcs).usage = st.usage := by
  obtain ⟨s, c, f, h⟩ := mutPhase_shape st tcs; rw [h]

@[simp] theorem reasoningPhase_content (st : AsmState) (d : Delta) :
    (reasoningPhase st d).content = st.content := by
  obtain ⟨p, r, h⟩ := reasoningPhase_shape st d; rw [h]

@[simp] theorem reasoningPhase_tool_calls (st : AsmState) (d : Delta) :
    (reasoningPhase st d).tool_calls = st.tool_calls := by
  obtain ⟨p, r, h⟩ := reasoningPhase_shape st d; rw [h]

@[simp] theorem reasoningPhase_tool_result (st : AsmState) (d : Delta) :
    (reasoningPhase st d).tool_result = st.tool_result := by
  obtain ⟨p, r, h⟩ := reasoningPhase_shape st d; rw [h]

@[simp] theorem reasoningPhase_current (st : AsmState) (d : Delta) :
    (reasoningPhase st d).current = st.current := by
  obtain ⟨p, r, h⟩ := reasoningPhase_shape st d; rw [h]

@[simp] theorem reasoningPhase_store (st : AsmState) (d : Delta) :
    (reasoningPhase st d).store = st.store := by
  obtain ⟨p, r, h⟩ := reasoningPhase_shape st d; rw [h]

@[simp] theorem reasoningPhase_usage (st : AsmState) (d : Delta) :
    (reasoningPhase st d).usage = st.usage := by
  obtain ⟨p, r, h⟩ := reasoningPhase_shape st d; rw [h]

@[simp] theorem structPhase_content (st : AsmState) (tcs : List ToolCallChunk) :
    (structPhase st tcs).content = st.content := by
  obtain ⟨p, t, h⟩ := structPhase_shape st tcs; rw [h]

@[simp] theorem structPhase_reasoning_content (st : AsmState) (tcs : List ToolCallChunk) :
    (structPhase st tcs).reasoning_content = st.reasoning_content := by
  obtain ⟨p, t, h⟩ := structPhase_shape st tcs; rw [h]

@[simp] theorem structPhase_tool_result (st : AsmState) (tcs : List ToolCallChunk) :
    (structPhase st tcs).tool_result = st.tool_result := by
  obtain ⟨p, t, h⟩ := structPhase_shape st tcs; rw [h]

@[simp] theorem structPhase_current (st : AsmState) (tcs : List ToolCallChunk) :
    (structPhase st tcs).current = st.current := by
  obtain ⟨p, t, h⟩ := structPhase_shape st tcs; rw [h]

@[simp] theorem structPhase_store (st : AsmState) (tcs : List ToolCallChunk) :
    (structPhase st tcs).store = st.store := by
  obtain ⟨p, t, h⟩ := structPhase_shape st tcs; rw [h]

@[simp] theorem structPhase_usage (st : AsmState) (tcs : List ToolCallChunk) :
    (structPhase st tcs).usage = st.usage := by
  obtain ⟨p, t, h⟩ := structPhase_shape st tcs; rw [h]

@[simp] theorem toolResultPhase_content (st : AsmState) (d : Delta) :
    (toolResultPhase st d).content = st.content := by
  obtain ⟨p, t, h⟩ := toolResultPhase_shape st d; rw [h]

@[simp] theorem toolResultPhase_reasoning_content (st : AsmState) (d : Delta) :
    (toolResultPhase st d).reasoning_content = st.reasoning_content := by
  obtain ⟨p, t, h⟩ := toolResultPhase_shape st d; rw [h]

@[simp] theorem toolResultPhase_tool_calls (st : AsmState) (d : Delta) :
    (toolResultPhase st d).tool_calls = st.tool_calls := by
  obtain ⟨p, t, h⟩ := toolResultPhase_shape st d; rw [h]

@[simp] theorem toolResultPhase_current (st : AsmState) (d : Delta) :
    (toolResultPhase st d).current = st.current := by
  obtain ⟨p, t, h⟩ := toolResultPhase_shape st d; rw [h]

@[simp] theorem toolResultPhase_store (st : AsmState) (d : Delta) :
    (toolResultPhase st d).store = st.store := by
  obtain ⟨p, t, h⟩ := toolResultPhase_shape st d; rw [h]

@[simp] theorem toolResultPhase_usage (st : AsmState) (d : Delta) :
    (toolResultPhase st d).usage = st.usage := by
  obtain ⟨p, t, h⟩ := toolResultPhase_shape st d; rw [h]

@[simp] theorem contentPhase_reasoning_content (st : AsmState) (d : Delta) :
    (contentPhase st d).reasoning_content = st.reasoning_content := by
  obtain ⟨p, c, h⟩ := contentPhase_shape st d; rw [h]

@[simp] theorem contentPhase_tool_calls (st : AsmState) (d : Delta) :
    (contentPhase st d).tool_calls = st.tool_calls := by
  obtain ⟨p, c, h⟩ := contentPhase_shape st d; rw [h]

@[simp] theorem contentPhase_tool_result (st : AsmState) (d : Delta) :
    (contentPhase st d).tool_result = st.tool_result := by
  obtain ⟨p, c, h⟩ := contentPhase_shape st d; rw [h]

@[simp] theorem contentPhase_current (st : AsmState) (d : Delta) :
    (contentPhase st d).current = st.current := by
  obtain ⟨p, c, h⟩ := contentPhase_shape st d; rw [h]

@[simp] theorem contentPhase_store (st : AsmState) (d : Delta) :
    (contentPhase st d).store = st.store := by
  obtain ⟨p, c, h⟩ := contentPhase_shape st d; rw [h]

@[simp] theorem contentPhase_usage (st : AsmState) (d : Delta) :
    (contentPhase st d).usage = st.usage := by
  obtain ⟨p, c, h⟩ := contentPhase_shape st d; rw [h]

@[simp] theorem interruptPhase_content (st : AsmState) (d : Delta) :
    (interruptPhase st d).content = st.content := by
  obtain ⟨i, b, h⟩ := interruptPhase_shape st d; rw [h]

@[simp] theorem interruptPhase_reasoning_content (st : AsmState) (d : Delta) :
    (interruptPhase st d).reasoning_content = st.reasoning_content := by
  obtain ⟨i, b, h⟩ := interruptPhase_shape st d; rw [h]

@[simp] theorem interruptPhase_tool_calls (st : AsmState) (d : Delta) :
    (interruptPhase st d).tool_calls = st.tool_calls := by
  obtain ⟨i, b, h⟩ := interruptPhase_shape st d; rw [h]

@[simp] theorem interruptPhase_tool_result (st : AsmState) (d : Delta) :
    (interruptPhase st d).tool_result = st.tool_result := by
  obtain ⟨i, b, h⟩ := interruptPhase_shape st d; rw [h]

@[simp] theorem interruptPhase_parts (st : AsmState) (d : Delta) :
    (interruptPhase st d).parts = st.parts := by
  obtain ⟨i, b, h⟩ := interruptPhase_shape st d; rw [h]

@[simp] theorem interruptPhase_current (st : AsmState) (d : Delta) :
    (interruptPhase st d).current = st.current := by
  obtain ⟨i, b, h⟩ := interruptPhase_shape st d; rw [h]

@[simp] theorem interruptPhase_store (st : AsmState) (d : Delta) :
    (interruptPhase st d).store = st.store := by
  obtain ⟨i, b, h⟩ := interruptPhase_shape st d; rw [h]

@[simp] theorem interruptPhase_usage (st : AsmState) (d : Delta) :
    (interruptPhase st d).usage = st.usage := by
  obtain ⟨i, b, h⟩ := interruptPhase_shape st d; rw [h]

/-! Effect of the three coalescing pushes on the spec-side projections. -/

theorem textConcat_pushText (ps : List PartR) (c : String) :
    textConcat (pushCoalesceText ps c) = textConcat ps ++ c := by
  rcases List.eq_nil_or_concat ps with h | ⟨L, b, h⟩ <;> subst h
  · simp [pushCoalesceText, textConcat, textOf]
  · rw [List.concat_eq_append]
    unfold pushCoalesceText
    rw [List.getLast?_concat]
    cases b <;> simp [textConcat_append, textConcat, textOf, String.append_assoc]

theorem reasoningConcat_pushText (ps : List PartR) (c : String) :
    reasoningConcat (pushCoalesceText ps c) = reasoningConcat ps := by
  rcases List.eq_nil_or_concat ps with h | ⟨L, b, h⟩ <;> subst h
  · simp [pushCoalesceText, reasoningConcat, reasonOf]
  · rw [List.concat_eq_append]
    unfold pushCoalesceText
    rw [List.getLast?_concat]
    cases b <;> simp [reasoningConcat_append, reasoningConcat, reasonOf]

theorem toolResultConcat_pushText (ps : List PartR) (c : String) :
    toolResultConcat (pushCoalesceText ps c) = toolResultConcat ps := by
  rcases List.eq_nil_or_concat ps with h | ⟨L, b, h⟩ <;> subst h
  · simp [pushCoalesceText, toolResultConcat, resultsOf]
  · rw [List.concat_eq_append]
    unfold pushCoalesceText
    rw [List.getLast?_concat]
    cases b <;> simp [toolResultConcat_append, toolResultConcat, resultsOf]

theorem textConcat_pushReasoning (ps : List PartR) (c : String) :
    textConcat (pushCoalesceReasoning ps c) = textConcat ps := by
  rcases List.eq_nil_or_concat ps with h | ⟨L, b, h⟩ <;> subst h
  · simp [pushCoalesceReasoning, textConcat, textOf]
  · rw [List.concat_eq_append]
    unfold pushCoalesceReasoning
    rw [List.getLast?_concat]
    cases b <;> simp [textConcat_append, textConcat, textOf]

theorem reasoningConcat_pushReasoning (ps : List PartR) (c : String) :
    reasoningConcat (pushCoalesceReasoning ps c) = reasoningConcat ps ++ c := by
  rcases List.eq_nil_or_concat ps with h | ⟨L, b, h⟩ <;> subst h
  · simp [pushCoalesceReasoning, reasoningConcat, reasonOf]
  · rw [List.concat_eq_append]
    unfold pushCoalesceReasoning
    rw [List.getLast?_concat]
    cases b <;> simp [reasoningConcat_append, reasoningConcat, reasonOf, String.append_assoc]

theorem toolResultConcat_pushReasoning (ps : List PartR) (c : String) :
    toolResultConcat (pushCoalesceReasoning ps c) = toolResultConcat ps := by
  rcases List.eq_nil_or_concat ps with h | ⟨L, b, h⟩ <;> subst h
  · simp [pushCoalesceReasoning, toolResultConcat, resultsOf]
  · rw [List.concat_eq_append]
    unfold pushCoalesceReasoning
    rw [List.getLast?_concat]
    cases b <;> simp [toolResultConcat_append, toolResultConcat, resultsOf]

theorem textConcat_pushToolResult (ps : List PartR) (r : ToolResult) :
    textConcat (pushCoalesceToolResult ps r) = textConcat ps := by
  rcases List.eq_nil_or_concat ps with h | ⟨L, b, h⟩ <;> subst h
  · simp [pushCoalesceToolResult, textConcat, textOf]
  · rw [List.concat_eq_append]
    unfold pushCoalesceToolResult
    rw [List.getLast?_concat]
    cases b <;> simp [textConcat_append, textConcat, textOf]

theorem reasoningConcat_pushToolResult (ps : List PartR) (r : ToolResult) :
    reasoningConcat (pushCoalesceToolResult ps r) = reasoningConcat ps := by
  rcases List.eq_nil_or_concat ps with h | ⟨L, b, h⟩ <;> subst h
  · simp [pushCoalesceToolResult, reasoningConcat, reasonOf]
  · rw [List.concat_eq_append]
    unfold pushCoalesceToolResult
    rw [List.getLast?_concat]
    cases b <;> simp [reasoningConcat_append, reasoningConcat, reasonOf]

theorem toolResultConcat_pushToolResult (ps : List PartR) (r : ToolResult) :
    toolResultConcat (pushCoalesceToolResult ps r) = toolResultConcat ps ++ [r] := by
  rcases List.eq_nil_or_concat ps with h | ⟨L, b, h⟩ <;> subst h
  · simp [pushCoalesceToolResult, toolResultConcat, resultsOf]
  · rw [List.concat_eq_append]
    unfold pushCoalesceToolResult
    rw [List.getLast?_concat]
    cases b <;> simp [toolResultConcat_append, toolResultConcat, resultsOf]

/-! Preservation of reflected accumulator references by the pushes. -/

theorem reflectedIn_append (aid : Nat) (l₁ l₂ : List PartR) (h : reflectedIn aid l₁) :
    reflectedIn aid (l₁ ++ l₂) := by
  obtain ⟨ids, hmem, hin⟩ := h
  exact ⟨ids, List.mem_append_left _ hmem, hin⟩

theorem reflectedIn_pushText (aid : Nat) (ps : List PartR) (c : String)
    (h : reflectedIn aid ps) : reflectedIn aid (pushCoalesceText ps c) := by
  rcases List.eq_nil_or_concat ps with hps | ⟨L, b, hps⟩ <;> subst hps
  · obtain ⟨ids, hmem, _⟩ := h
    simp at hmem
  · rw [List.concat_eq_append] at h ⊢
    unfold pushCoalesceText
    rw [List.getLast?_concat]
    cases b with
    | text t =>
      rw [List.dropLast_concat]
      obtain ⟨ids, hmem, hin⟩ := h
      rcases List.mem_append.mp hmem with hL | hb
      · exact ⟨ids, List.mem_append_left _ hL, hin⟩
      · simp at hb
    | reasoning t => exact reflectedIn_append _ _ _ h
    | toolCalls ids => exact reflectedIn_append _ _ _ h
    | toolResult rs => exact reflectedIn_append _ _ _ h

theorem reflectedIn_pushReasoning (aid : Nat) (ps : List PartR) (c : String)
    (h : reflectedIn aid ps) : reflectedIn aid (pushCoalesceReasoning ps c) := by
  rcases List.eq_nil_or_concat ps with hps | ⟨L, b, hps⟩ <;> subst hps
  · obtain ⟨ids, hmem, _⟩ := h
    simp at hmem
  · rw [List.concat_eq_append] at h ⊢
    unfold pushCoalesceReasoning
    rw [List.getLast?_concat]
    cases b with
    | reasoning t =>
      rw [List.dropLast_concat]
      obtain ⟨ids, hmem, hin⟩ := h
      rcases List.mem_append.mp hmem with hL | hb
      · exact ⟨ids, List.mem_append_left _ hL, hin⟩
      · simp at hb
    | text t => exact reflectedIn_append _ _ _ h
    | toolCalls ids => exact reflectedIn_append _ _ _ h
    | toolResult rs => exact reflectedIn_append _ _ _ h

theorem reflectedIn_pushToolResult (aid : Nat) (ps : List PartR) (r : ToolResult)
    (h : reflectedIn aid ps) : reflectedIn aid (pushCoalesceToolResult ps r) := by
  rcases List.eq_nil_or_concat ps with hps | ⟨L, b, hps⟩ <;> subst hps
  · obtain ⟨ids, hmem, _⟩ := h
    simp at hmem
  · rw [List.concat_eq_append] at h ⊢
    unfold pushCoalesceToolResult
    rw [List.getLast?_concat]
    cases b with
    | toolResult rs =>
      rw [List.dropLast_concat]
      obtain ⟨ids, hmem, hin⟩ := h
      rcases List.mem_append.mp hmem with hL | hb
      · exact ⟨ids, List.mem_append_left _ hL, hin⟩
      · simp at hb
    | text t => exact reflectedIn_append _ _ _ h
    | reasoning t => exact reflectedIn_append _ _ _ h
    | toolCalls ids => exact reflectedIn_append _ _ _ h

/-! Lemmas about the accumulator table. -/

theorem lookupIdx_insertIdx_self (cur : List (Nat × Nat)) (i aid : Nat) :
    lookupIdx (insertIdx cur i aid) i = some aid := by
  induction cur with
  | nil => simp [insertIdx, lookupIdx]
  | cons kv rest ih =>
    obtain ⟨k, v⟩ := kv
    unfold insertIdx
    by_cases h1 : i < k
    · simp [if_pos h1, lookupIdx]
    · rw [if_neg h1]
      by_cases h2 : i = k
      · simp [if_pos h2, lookupIdx]
      · rw [if_neg h2]
        have : k ≠ i := fun hk => h2 hk.symm
        simp [lookupIdx, this, ih]

theorem lookupIdx_insertIdx_ne (cur : List (Nat × Nat)) (i aid j : Nat) (hne : j ≠ i) :
    lookupIdx (insertIdx cur i aid) j = lookupIdx cur j := by
  have hij : ¬ i = j := fun h => hne h.symm
  induction cur with
  | nil => simp [insertIdx, lookupIdx, hij]
  | cons kv rest ih =>
    obtain ⟨k, v⟩ := kv
    unfold insertIdx
    by_cases h1 : i < k
    · simp [if_pos h1, lookupIdx, hij]
    · rw [if_neg h1]
      by_cases h2 : i = k
      · subst h2
        simp [lookupIdx, hij]
      · rw [if_neg h2]
        by_cases h3 : k = j
        · simp [lookupIdx, h3]
        · simp [lookupIdx, h3, ih]

theorem mem_insertIdx (cur : List (Nat × Nat)) (i aid : Nat) (p : Nat × Nat)
    (h : p ∈ insertIdx cur i aid) : p = (i, aid) ∨ p ∈ cur := by
  induction cur with
  | nil =>
    simp [insertIdx] at h
    exact Or.inl h
  | cons kv rest ih =>
    obtain ⟨k, v⟩ := kv
    unfold insertIdx at h
    by_cases h1 : i < k
    · rw [if_pos h1] at h
      rw [List.mem_cons] at h
      rcases h with h | h
      · exact Or.inl h
      · exact Or.inr h
    · rw [if_neg h1] at h
      by_cases h2 : i = k
      · rw [if_pos h2] at h
        rw [List.mem_cons] at h
        rcases h with h | h
        · exact Or.inl h
        · exact Or.inr (List.mem_cons_of_mem _ h)
      · rw [if_neg h2] at h
        rw [List.mem_cons] at h
        rcases h with h | h
        · subst h
          exact Or.inr (List.mem_cons_self _ _)
        · rcases ih h with h2 | h2
          · exact Or.inl h2
          · exact Or.inr (List.mem_cons_of_mem _ h2)

theorem insertIdx_pairwise (cur : List (Nat × Nat)) (i aid : Nat)
    (h : List.Pairwise (fun a b => a.1 < b.1) cur) :
    List.Pairwise (fun a b => a.1 < b.1) (insertIdx cur i aid) := by
  induction cur with
  | nil => simp [insertIdx]
  | cons kv rest ih =>
    obtain ⟨k, v⟩ := kv
    rw [List.pairwise_cons] at h
    obtain ⟨hk, hrest⟩ := h
    unfold insertIdx
    by_cases h1 : i < k
    · rw [if_pos h1]
      refine List.Pairwise.cons ?_ (List.Pairwise.cons hk hrest)
      intro p hp
      rw [List.mem_cons] at hp
      rcases hp with hp | hp
      · subst hp
        exact h1
      · exact lt_trans h1 (hk p hp)
    · rw [if_neg h1]
      by_cases h2 : i = k
      · rw [if_pos h2]
        subst h2
        exact List.Pairwise.cons hk hrest
      · rw [if_neg h2]
        refine List.Pairwise.cons ?_ (ih hrest)
        intro p hp
        rcases mem_insertIdx _ _ _ _ hp with hp2 | hp2
        · subst hp2
          exact lt_of_le_of_ne (Nat.le_of_not_lt h1) (fun hk2 => h2 hk2.symm)
        · exact hk p hp2

theorem lookupIdx_some_mem (cur : List (Nat × Nat)) (i aid : Nat)
    (h : lookupIdx cur i = some aid) : (i, aid) ∈ cur := by
  induction cur with
  | nil => simp [lookupIdx] at h
  | cons kv rest ih =>
    obtain ⟨k, v⟩ := kv
    unfold lookupIdx at h
    by_cases hk : k = i
    · rw [if_pos hk] at h
      subst hk
      cases h
      exact List.mem_cons_self _ _
    · rw [if_neg hk] at h
      exact List.mem_cons_of_mem _ (ih h)

theorem mem_lookupIdx_of_pairwise (cur : List (Nat × Nat)) (i aid : Nat)
    (hp : List.Pairwise (fun a b => a.1 < b.1) cur) (h : (i, aid) ∈ cur) :
    lookupIdx cur i = some aid := by
  induction cur with
  | nil => simp at h
  | cons kv rest ih =>
    obtain ⟨k, v⟩ := kv
    rw [List.pairwise_cons] at hp
    obtain ⟨hk, hrest⟩ := hp
    rw [List.mem_cons] at h
    rcases h with h | h
    · cases h
      simp [lookupIdx]
    · have hki : k ≠ i := by
        have := hk _ h
        exact Nat.ne_of_lt this
      simp [lookupIdx, hki, ih hrest h]

/-! Lemmas about heap mutation and the mutation phase. -/

theorem modifyNth_length (f : ToolCall → ToolCall) (l : List ToolCall) (n : Nat) :
    (modifyNth f l n).length = l.length := by
  induction l generalizing n with
  | nil => rfl
  | cons tc rest ih =>
    cases n with
    | zero => rfl
    | succ n => simp [modifyNth, ih]

theorem modifyNth_concat_length (f : ToolCall → ToolCall) (l : List ToolCall) (x : ToolCall) :
    modifyNth f (l ++ [x]) l.length = l ++ [f x] := by
  induction l with
  | nil => rfl
  | cons tc rest ih => simp [modifyNth, ih]

theorem strTruthy_false_getD (o : Option String) (h : strTruthy o = false) : o.getD "" = "" := by
  cases o with
  | none => rfl
  | some s =>
    simp [strTruthy] at h
    rw [String.isEmpty_iff] at h
    simpa using h

theorem mutOne_existing (st : AsmState) (tc : ToolCallChunk) (aid : Nat)
    (h1 : strTruthy tc.id = false) (h2 : lookupIdx st.current tc.index = some aid) :
    (mutOne st tc).current = st.current ∧ (mutOne st tc).store.length = st.store.length := by
  unfold mutOne
  dsimp only
  rw [if_neg (by simp [h1, h2]), h2]
  dsimp only
  constructor
  · split <;> split <;> rfl
  · split <;> split <;> simp [modifyNth_length]

theorem mutOne_create (st : AsmState) (tc : ToolCallChunk)
    (hc : strTruthy tc.id = true ∨ lookupIdx st.current tc.index = none) :
    mutOne st tc =
      { st with
        store := st.store ++
          [{ id := if strTruthy tc.id then tc.id.getD "" else genId st.fresh,
             function := { name := (tc.function.bind ToolFnChunk.name).getD "",
                           arguments := (tc.function.bind ToolFnChunk.arguments).getD "" } }],
        current := insertIdx st.current tc.index st.store.length,
        fresh := if strTruthy tc.id then st.fresh else st.fresh + 1 } := by
  unfold mutOne
  dsimp only
  rw [if_pos hc, lookupIdx_insertIdx_self]
  dsimp only
  cases hn : strTruthy (tc.function.bind ToolFnChunk.name) <;>
    cases ha : strTruthy (tc.function.bind ToolFnChunk.arguments)
  · simp [hn, ha, strTruthy_false_getD _ hn, strTruthy_false_getD _ ha]
  · simp [hn, ha, modifyNth_concat_length, strTruthy_false_getD _ hn]
  · simp [hn, ha, modifyNth_concat_length, strTruthy_false_getD _ ha]
  · simp [hn, ha, modifyNth_concat_length]

theorem mutOne_truthy_id (st : AsmState) (tc : ToolCallChunk) (h : strTruthy tc.id = true) :
    lookupIdx (mutOne st tc).current tc.index = some st.store.length ∧
    resolveToolCall (mutOne st tc).store st.store.length =
      { id := tc.id.getD "",
        function := { name := (tc.function.bind ToolFnChunk.name).getD "",
                      arguments := (tc.function.bind ToolFnChunk.arguments).getD "" } } := by
  rw [mutOne_create st tc (Or.inl h)]
  dsimp only
  constructor
  · exact lookupIdx_insertIdx_self _ _ _
  · unfold resolveToolCall
    rw [List.get?_concat_length]
    simp [h]

theorem mutOne_generated (st : AsmState) (tc : ToolCallChunk)
    (h1 : strTruthy tc.id = false) (h2 : lookupIdx st.current tc.index = none) :
    lookupIdx (mutOne st tc).current tc.index = some st.store.length ∧
    (resolveToolCall (mutOne st tc).store st.store.length).id = genId st.fresh := by
  rw [mutOne_create st tc (Or.inr h2)]
  dsimp only
  constructor
  · exact lookupIdx_insertIdx_self _ _ _
  · unfold resolveToolCall
    rw [List.get?_concat_length]
    simp [h1]

theorem mutOne_current_ne (st : AsmState) (tc : ToolCallChunk) (i : Nat) (h : tc.index ≠ i) :
    lookupIdx (mutOne st tc).current i = lookupIdx st.current i := by
  unfold mutOne
  dsimp only
  repeat' split
  all_goals first
    | rfl
    | exact lookupIdx_insertIdx_ne _ _ _ _ (Ne.symm h)

theorem mutOne_current_pairwise (st : AsmState) (tc : ToolCallChunk)
    (h : List.Pairwise (fun a b => a.1 < b.1) st.current) :
    List.Pairwise (fun a b => a.1 < b.1) (mutOne st tc).current := by
  unfold mutOne
  dsimp only
  repeat' split
  all_goals first
    | exact h
    | exact insertIdx_pairwise _ _ _ h

theorem mutPhase_current_ne (st : AsmState) (tcs : List ToolCallChunk) (i : Nat)
    (h : ∀ tc ∈ tcs, tc.index ≠ i) :
    lookupIdx (mutPhase st tcs).current i = lookupIdx st.current i := by
  induction tcs generalizing st with
  | nil => rfl
  | cons tc tcs ih =>
    have step : mutPhase st (tc :: tcs) = mutPhase (mutOne st tc) tcs := rfl
    rw [step, ih _ (fun t ht => h t (List.mem_cons_of_mem _ ht)),
        mutOne_current_ne _ _ _ (h tc (List.mem_cons_self _ _))]

theorem mutPhase_current_pairwise (st : AsmState) (tcs : List ToolCallChunk)
    (h : List.Pairwise (fun a b => a.1 < b.1) st.current) :
    List.Pairwise (fun a b => a.1 < b.1) (mutPhase st tcs).current := by
  induction tcs generalizing st with
  | nil => exact h
  | cons tc tcs ih =>
    have step : mutPhase st (tc :: tcs) = mutPhase (mutOne st tc) tcs := rfl
    rw [step]
    exact ih _ (mutOne_current_pairwise _ _ h)

/-! Lemmas about the structural-phase fold `pushIds`. -/

theorem subset_pushIds (cur : List (Nat × Nat)) (tcs : List ToolCallChunk) :
    ∀ ids₀, ids₀ ⊆ pushIds cur ids₀ tcs := by
  induction tcs with
  | nil => intro ids₀; exact fun x hx => hx
  | cons tc tcs ih =>
    intro ids₀
    have step : pushIds cur ids₀ (tc :: tcs) =
        pushIds cur (match lookupIdx cur tc.index with
          | some aid => if aid ∈ ids₀ then ids₀ else ids₀ ++ [aid]
          | none => ids₀) tcs := rfl
    rw [step]
    refine List.Subset.trans ?_ (ih _)
    cases hl : lookupIdx cur tc.index with
    | none => exact fun x hx => hx
    | some aid =>
      dsimp only
      by_cases hmem : aid ∈ ids₀
      · rw [if_pos hmem]
        exact fun x hx => hx
      · rw [if_neg hmem]
        exact List.subset_append_left _ _

theorem mem_pushIds (cur : List (Nat × Nat)) (tcs : List ToolCallChunk)
    (tc : ToolCallChunk) (aid : Nat) (htc : tc ∈ tcs)
    (hl : lookupIdx cur tc.index = some aid) :
    ∀ ids₀, aid ∈ pushIds cur ids₀ tcs := by
  induction tcs with
  | nil => simp at htc
  | cons tc0 tcs ih =>
    intro ids₀
    have step : pushIds cur ids₀ (tc0 :: tcs) =
        pushIds cur (match lookupIdx cur tc0.index with
          | some a => if a ∈ ids₀ then ids₀ else ids₀ ++ [a]
          | none => ids₀) tcs := rfl
    rw [step]
    rw [List.mem_cons] at htc
    rcases htc with h | h
    · subst h
      apply subset_pushIds
      simp only [hl]
      by_cases hmem : aid ∈ ids₀
      · rw [if_pos hmem]
        exact hmem
      · rw [if_neg hmem]
        exact List.mem_append_right _ (List.mem_singleton.mpr rfl)
    · exact ih h _

theorem pushIds_nodup (cur : List (Nat × Nat)) (tcs : List ToolCallChunk) :
    ∀ ids₀ : List Nat, ids₀.Nodup → (pushIds cur ids₀ tcs).Nodup := by
  induction tcs with
  | nil => intro ids₀ h; exact h
  | cons tc tcs ih =>
    intro ids₀ h
    have step : pushIds cur ids₀ (tc :: tcs) =
        pushIds cur (match lookupIdx cur tc.index with
          | some a => if a ∈ ids₀ then ids₀ else ids₀ ++ [a]
          | none => ids₀) tcs := rfl
    rw [step]
    apply ih
    cases hl : lookupIdx cur tc.index with
    | none => exact h
    | some a =>
      dsimp only
      by_cases hmem : a ∈ ids₀
      · rw [if_pos hmem]
        exact h
      · rw [if_neg hmem]
        simp [List.nodup_append, h, hmem]

theorem reflectedIn_structPhase (st : AsmState) (tcs : List ToolCallChunk) (aid : Nat)
    (h : reflectedIn aid st.parts) : reflectedIn aid (structPhase st tcs).parts := by
  unfold structPhase
  dsimp only
  rcases List.eq_nil_or_concat st.parts with hps | ⟨L, b, hps⟩
  · rw [hps] at h
    obtain ⟨ids, hmem, _⟩ := h
    simp at hmem
  · rw [List.concat_eq_append] at hps
    rw [hps] at h ⊢
    rw [List.getLast?_concat]
    cases b with
    | toolCalls ids₀ =>
      rw [List.dropLast_concat]
      obtain ⟨ids, hmem, hin⟩ := h
      rcases List.mem_append.mp hmem with hL | hb
      · exact ⟨ids, List.mem_append_left _ hL, hin⟩
      · rw [List.mem_singleton] at hb
        cases hb
        exact ⟨_, List.mem_append_right _ (List.mem_singleton.mpr rfl),
          subset_pushIds _ _ _ hin⟩
    | text t => exact reflectedIn_append _ _ _ h
    | reasoning t => exact reflectedIn_append _ _ _ h
    | toolResult rs => exact reflectedIn_append _ _ _ h

theorem reflectedIn_structPhase_new (st : AsmState) (tcs : List ToolCallChunk)
    (tc : ToolCallChunk) (aid : Nat) (htc : tc ∈ tcs)
    (hl : lookupIdx st.current tc.index = some aid) :
    reflectedIn aid (structPhase st tcs).parts := by
  rw [structPhase_parts]
  exact ⟨_, List.mem_append_right _ (List.mem_singleton.mpr rfl),
    mem_pushIds _ _ _ _ htc hl _⟩

/-! Reduction of single-payload frames to their one active phase. -/

theorem applyChunk_mkContent (st : AsmState) (c : String) :
    applyChunk st (mkContentChunk c) = contentPhase st { content := some c } := rfl

theorem applyChunk_mkReasoning (st : AsmState) (c : String) :
    applyChunk st (mkReasoningChunk c) = reasoningPhase st { reasoning_content := some c } := rfl

theorem strTruthy_some_of_ne (c : String) (h : c ≠ "") : strTruthy (some c) = true := by
  have he : c.isEmpty = false := by
    cases he : c.isEmpty
    · rfl
    · exact absurd ((String.isEmpty_iff c).mp he) h
  simp [strTruthy, he]

theorem applyDelta_usage (st : AsmState) (d : Delta) :
    (applyDelta st d).usage = st.usage := by
  unfold applyDelta
  cases d.tool_calls <;> simp

theorem applyIdentity_id (st : AsmState) (ch : Chunk) :
    (applyIdentity st ch).id =
      (match ch.id with
        | some cid => if cid.isEmpty then st.id else cid
        | none => st.id) := by
  unfold applyIdentity
  cases hc : ch.id <;> cases hm : ch.message_id <;> dsimp only <;> (repeat' split) <;>
    first
      | rfl
      | assumption
      | (rename_i hne; exact absurd rfl hne)

theorem applyIdentity_message_id (st : AsmState) (ch : Chunk) :
    (applyIdentity st ch).message_id =
      (match ch.message_id with
        | some mid => if mid.isEmpty then st.message_id else some mid
        | none => st.message_id) := by
  unfold applyIdentity
  cases hc : ch.id <;> cases hm : ch.message_id <;> dsimp only <;> (repeat' split) <;>
    first
      | rfl
      | assumption
      | (rename_i hne; exact absurd rfl hne)

/-!
## The claims
-/

/-- C1: adjacency coalescing.  Applying the content fragments "Hello" then
" world" to the empty assistant message yields exactly one text part
"Hello world"; applying content, reasoning_content, content yields three
parts text/reasoning/text in that order; and in general a content
(resp. reasoning) fragment extends the tail part in place when the tail
has the matching type and otherwise appends a new trailing part. -/
theorem C1_adjacency_coalescing :
    ((applyChunks (initialAssistantMsg "msg") [mkContentChunk "Hello", mkContentChunk " world"]).parts
        = [PartR.text "Hello world"])
  ∧ ((applyChunks (initialAssistantMsg "msg")
        [mkContentChunk "a", mkReasoningChunk "b", mkContentChunk "c"]).parts
        = [PartR.text "a", PartR.reasoning "b", PartR.text "c"])
  ∧ (∀ (st : AsmState) (c : String), c ≠ "" →
      (applyChunk st (mkContentChunk c)).parts =
        (match st.parts.getLast? with
          | some (PartR.text t) => st.parts.dropLast ++ [PartR.text (t ++ c)]
          | _ => st.parts ++ [PartR.text c]))
  ∧ (∀ (st : AsmState) (c : String), c ≠ "" →
      (applyChunk st (mkReasoningChunk c)).parts =
        (match st.parts.getLast? with
          | some (PartR.reasoning t) => st.parts.dropLast ++ [PartR.reasoning (t ++ c)]
          | _ => st.parts ++ [PartR.reasoning c])) := by
  refine ⟨by decide, by decide, ?_, ?_⟩
  · intro st c hc
    rw [applyChunk_mkContent, contentPhase_pos _ _ (strTruthy_some_of_ne c hc)]
    rfl
  · intro st c hc
    rw [applyChunk_mkReasoning, reasoningPhase_pos _ _ (strTruthy_some_of_ne c hc)]
    rfl

/-- Witness for C1: the general coalescing clause evaluated at the empty parts list. -/
theorem C1_adjacency_coalescing_witness :
    ("!" : String) ≠ "" ∧
    (applyChunk (initialAssistantMsg "msg") (mkContentChunk "!")).parts = [PartR.text "!"] := by
  refine ⟨by decide, ?_⟩
  have h := C1_adjacency_coalescing.2.2.1 (initialAssistantMsg "msg") "!" (by decide)
  simpa using h

/-- C2: tool-call fragment accumulation.  The three-fragment sequence with
the id only on the first fragment folds into exactly one accumulator
`{id := "a", name := "get", arguments := "\x7b\x7d"}`, and in general a
fragment lacking a truthy id never creates a second accumulator for an
already-seen index: the table and the heap size are left unchanged. -/
theorem C2_tool_call_accumulation :
    (resolvedToolCalls (applyChunks (initialAssistantMsg "msg") c2Chunks)
        = [{ id := "a", function := { name := "get", arguments := "{}" } }])
  ∧ ((applyChunks (initialAssistantMsg "msg") c2Chunks).current = [(0, 0)])
  ∧ (∀ (st : AsmState) (tc : ToolCallChunk) (aid : Nat),
      strTruthy tc.id = false → lookupIdx st.current tc.index = some aid →
      lookupIdx (mutOne st tc).current tc.index = some aid
        ∧ (mutOne st tc).current = st.current
        ∧ (mutOne st tc).store.length = st.store.length) := by
  refine ⟨by decide, by decide, ?_⟩
  intro st tc aid h1 h2
  obtain ⟨hcur, hlen⟩ := mutOne_existing st tc aid h1 h2
  exact ⟨by rw [hcur]; exact h2, hcur, hlen⟩

/-- Witness for C2: the no-duplicate-accumulator clause evaluated on a table that already holds index 0. -/
theorem C2_tool_call_accumulation_witness :
    strTruthy wFragNoId.id = false
  ∧ lookupIdx wStExisting.current wFragNoId.index = some 0
  ∧ (lookupIdx (mutOne wStExisting wFragNoId).current wFragNoId.index = some 0
      ∧ (mutOne wStExisting wFragNoId).current = wStExisting.current
      ∧ (mutOne wStExisting wFragNoId).store.length = wStExisting.store.length) := by
  refine ⟨by decide, by decide, ?_⟩
  exact C2_tool_call_accumulation.2.2 wStExisting wFragNoId 0 (by decide) (by decide)

/-- C3: explicit-id tie-break.  A fragment with a truthy id always makes the
slot at its index point at a freshly allocated accumulator holding that id
and only this fragment's own name/arguments pieces, even when an
accumulator already existed there; a fragment with no truthy id and no
existing accumulator gets a generated id. -/
theorem C3_explicit_id_tie_break :
    (∀ (st : AsmState) (tc : ToolCallChunk), strTruthy tc.id = true →
      lookupIdx (mutOne st tc).current tc.index = some st.store.length ∧
      resolveToolCall (mutOne st tc).store st.store.length =
        { id := tc.id.getD "",
          function := { name := (tc.function.bind ToolFnChunk.name).getD "",
                        arguments := (tc.function.bind ToolFnChunk.arguments).getD "" } })
  ∧ (∀ (st : AsmState) (tc : ToolCallChunk),
      strTruthy tc.id = false → lookupIdx st.current tc.index = none →
      lookupIdx (mutOne st tc).current tc.index = some st.store.length ∧
      (resolveToolCall (mutOne st tc).store st.store.length).id = genId st.fresh) :=
  ⟨mutOne_truthy_id, mutOne_generated⟩

/-- Witness for C3: the explicit-id clause evaluated on a slot that already holds an accumulator with accumulated content. -/
theorem C3_explicit_id_tie_break_witness :
    strTruthy wFragB.id = true
  ∧ (lookupIdx (mutOne wStContent wFragB).current wFragB.index = some wStContent.store.length
      ∧ resolveToolCall (mutOne wStContent wFragB).store wStContent.store.length =
          { id := wFragB.id.getD "",
            function := { name := (wFragB.function.bind ToolFnChunk.name).getD "",
                          arguments := (wFragB.function.bind ToolFnChunk.arguments).getD "" } }) := by
  refine ⟨by decide, ?_⟩
  exact C3_explicit_id_tie_break.1 wStContent wFragB (by decide)

/-- C8: usage accumulation.  Every frame carrying a usage object has it
added element-wise into the running totals, initialized to zero on first
occurrence; 10 then 5 prompt tokens accumulate to 15. -/
theorem C8_usage_accumulation :
    ((applyChunks (initialAssistantMsg "msg") [mkUsageChunk 10 1 11, mkUsageChunk 5 3 8]).usage
        = some { prompt_tokens := 15, completion_tokens := 4, total_tokens := 19 })
  ∧ (∀ (st : AsmState) (ch : Chunk) (u : Usage), ch.usage = some u →
      (applyChunk st ch).usage = some (addUsage (st.usage.getD zeroUsage) u)) := by
  refine ⟨by decide, ?_⟩
  intro st ch u hu
  unfold applyChunk
  cases hd : deltaOf ch with
  | none =>
    dsimp only
    unfold applyUsage
    rw [hu]
    simp
  | some d =>
    dsimp only
    rw [applyDelta_usage]
    unfold applyUsage
    rw [hu]
    simp

/-- Witness for C8: the element-wise addition clause evaluated on a message that already holds usage totals. -/
theorem C8_usage_accumulation_witness :
    (mkUsageChunk 5 3 8).usage = some { prompt_tokens := 5, completion_tokens := 3, total_tokens := 8 }
  ∧ (applyChunk wStUsage (mkUsageChunk 5 3 8)).usage =
      some (addUsage (wStUsage.usage.getD zeroUsage)
        { prompt_tokens := 5, completion_tokens := 3, total_tokens := 8 }) := by
  refine ⟨by decide, ?_⟩
  exact C8_usage_accumulation.2 wStUsage (mkUsageChunk 5 3 8) _ rfl

/-- C10: a frame without a delta (empty choices, or no delta in the first
choice) still adopts the frame's truthy id and message_id and still adds
its usage element-wise, and leaves parts, content, reasoning_content,
tool_calls, tool_result, interrupt_info and interrupted unchanged. -/
theorem C10_delta_less_frames (st : AsmState) (ch : Chunk) (h : deltaOf ch = none) :
    (applyChunk st ch).parts = st.parts
  ∧ (applyChunk st ch).content = st.content
  ∧ (applyChunk st ch).reasoning_content = st.reasoning_content
  ∧ (applyChunk st ch).tool_calls = st.tool_calls
  ∧ (applyChunk st ch).tool_result = st.tool_result
  ∧ (applyChunk st ch).interrupt_info = st.interrupt_info
  ∧ (applyChunk st ch).interrupted = st.interrupted
  ∧ (applyChunk st ch).id =
      (match ch.id with
        | some cid => if cid.isEmpty then st.id else cid
        | none => st.id)
  ∧ (applyChunk st ch).message_id =
      (match ch.message_id with
        | some mid => if mid.isEmpty then st.message_id else some mid
        | none => st.message_id)
  ∧ (applyChunk st ch).usage =
      (match ch.usage with
        | some u => some (addUsage (st.usage.getD zeroUsage) u)
        | none => st.usage) := by
  have happ : applyChunk st ch = applyUsage (applyIdentity st ch) ch := by
    unfold applyChunk
    rw [h]
  obtain ⟨i, m, hid⟩ := applyIdentity_shape st ch
  obtain ⟨u', hus⟩ := applyUsage_shape (applyIdentity st ch) ch
  refine ⟨?_, ?_, ?_, ?_, ?_, ?_, ?_, ?_, ?_, ?_⟩
  all_goals rw [happ]
  · rw [hus, hid]
  · rw [hus, hid]
  · rw [hus, hid]
  · rw [hus, hid]
  · rw [hus, hid]
  · rw [hus, hid]
  · rw [hus, hid]
  · rw [applyUsage_id, applyIdentity_id]
  · rw [applyUsage_message_id, applyIdentity_message_id]
  · unfold applyUsage
    cases hu : ch.usage with
    | none => simp
    | some u => simp

/-- Witness for C10: a frame with empty choices carrying a new id and a usage record. -/
theorem C10_delta_less_frames_witness :
    deltaOf wChIdUsage = none
  ∧ (applyChunk wStParts wChIdUsage).parts = [PartR.text "hi"] := by
  refine ⟨by decide, ?_⟩
  exact (C10_delta_less_frames wStParts wChIdUsage (by decide)).1

/-! Infrastructure for the denormalization invariant (C4). -/

theorem textConcat_structPhase (st : AsmState) (tcs : List ToolCallChunk) :
    textConcat (structPhase st tcs).parts = textConcat st.parts := by
  unfold structPhase
  dsimp only
  rcases List.eq_nil_or_concat st.parts with hps | ⟨L, b, hps⟩
  · rw [hps]
    simp [textConcat, textOf]
  · rw [List.concat_eq_append] at hps
    rw [hps, List.getLast?_concat]
    cases b <;> simp [List.dropLast_concat, textConcat_append, textConcat, textOf]

theorem reasoningConcat_structPhase (st : AsmState) (tcs : List ToolCallChunk) :
    reasoningConcat (structPhase st tcs).parts = reasoningConcat st.parts := by
  unfold structPhase
  dsimp only
  rcases List.eq_nil_or_concat st.parts with hps | ⟨L, b, hps⟩
  · rw [hps]
    simp [reasoningConcat, reasonOf]
  · rw [List.concat_eq_append] at hps
    rw [hps, List.getLast?_concat]
    cases b <;> simp [List.dropLast_concat, reasoningConcat_append, reasoningConcat, reasonOf]

theorem toolResultConcat_structPhase (st : AsmState) (tcs : List ToolCallChunk) :
    toolResultConcat (structPhase st tcs).parts = toolResultConcat st.parts := by
  unfold structPhase
  dsimp only
  rcases List.eq_nil_or_concat st.parts with hps | ⟨L, b, hps⟩
  · rw [hps]
    simp [toolResultConcat, resultsOf]
  · rw [List.concat_eq_append] at hps
    rw [hps, List.getLast?_concat]
    cases b <;> simp [List.dropLast_concat, toolResultConcat_append, toolResultConcat, resultsOf]

theorem reflectedIn_reasoningPhase (st : AsmState) (d : Delta) (aid : Nat)
    (h : reflectedIn aid st.parts) : reflectedIn aid (reasoningPhase st d).parts := by
  cases htr : strTruthy d.reasoning_content
  · rw [reasoningPhase_neg _ _ htr]
    exact h
  · rw [reasoningPhase_pos _ _ htr]
    exact reflectedIn_pushReasoning _ _ _ h

theorem denormInv_applyIdentity (st : AsmState) (ch : Chunk) (h : denormInv st) :
    denormInv (applyIdentity st ch) := by
  obtain ⟨i, m, hid⟩ := applyIdentity_shape st ch
  rw [hid]
  exact h

theorem denormInv_applyUsage (st : AsmState) (ch : Chunk) (h : denormInv st) :
    denormInv (applyUsage st ch) := by
  obtain ⟨u, hu⟩ := applyUsage_shape st ch
  rw [hu]
  exact h

theorem denormInv_reasoningPhase (st : AsmState) (d : Delta) (h : denormInv st) :
    denormInv (reasoningPhase st d) := by
  cases htr : strTruthy d.reasoning_content
  · rw [reasoningPhase_neg _ _ htr]
    exact h
  · rw [reasoningPhase_pos _ _ htr]
    obtain ⟨h1, h2, h3, h4, h5, h6⟩ := h
    refine ⟨?_, ?_, ?_, h4, h5, ?_⟩
    · show st.content = textConcat (pushCoalesceReasoning st.parts _)
      rw [textConcat_pushReasoning]
      exact h1
    · show (some (st.reasoning_content.getD "" ++ _)).getD "" =
        reasoningConcat (pushCoalesceReasoning st.parts _)
      rw [reasoningConcat_pushReasoning, Option.getD_some, h2]
    · show st.tool_result.getD [] = toolResultConcat (pushCoalesceReasoning st.parts _)
      rw [toolResultConcat_pushReasoning]
      exact h3
    · intro aid hm
      exact reflectedIn_pushReasoning _ _ _ (h6 aid hm)

theorem denormInv_toolResultPhase (st : AsmState) (d : Delta) (h : denormInv st) :
    denormInv (toolResultPhase st d) := by
  cases htr : d.tool_result with
  | none =>
    rw [toolResultPhase_none _ _ htr]
    exact h
  | some r =>
    rw [toolResultPhase_some _ _ r htr]
    obtain ⟨h1, h2, h3, h4, h5, h6⟩ := h
    refine ⟨?_, ?_, ?_, h4, h5, ?_⟩
    · show st.content = textConcat (pushCoalesceToolResult st.parts r)
      rw [textConcat_pushToolResult]
      exact h1
    · show st.reasoning_content.getD "" = reasoningConcat (pushCoalesceToolResult st.parts r)
      rw [reasoningConcat_pushToolResult]
      exact h2
    · show (some (st.tool_result.getD [] ++ [r])).getD [] =
        toolResultConcat (pushCoalesceToolResult st.parts r)
      rw [toolResultConcat_pushToolResult, Option.getD_some, h3]
    · intro aid hm
      exact reflectedIn_pushToolResult _ _ _ (h6 aid hm)

theorem denormInv_contentPhase (st : AsmState) (d : Delta) (h : denormInv st) :
    denormInv (contentPhase st d) := by
  cases htr : strTruthy d.content
  · rw [contentPhase_neg _ _ htr]
    exact h
  · rw [contentPhase_pos _ _ htr]
    obtain ⟨h1, h2, h3, h4, h5, h6⟩ := h
    refine ⟨?_, ?_, ?_, h4, h5, ?_⟩
    · show st.content ++ _ = textConcat (pushCoalesceText st.parts _)
      rw [textConcat_pushText, h1]
    · show st.reasoning_content.getD "" = reasoningConcat (pushCoalesceText st.parts _)
      rw [reasoningConcat_pushText]
      exact h2
    · show st.tool_result.getD [] = toolResultConcat (pushCoalesceText st.parts _)
      rw [toolResultConcat_pushText]
      exact h3
    · intro aid hm
      exact reflectedIn_pushText _ _ _ (h6 aid hm)

theorem denormInv_interruptPhase (st : AsmState) (d : Delta) (h : denormInv st) :
    denormInv (interruptPhase st d) := by
  obtain ⟨i, b, hib⟩ := interruptPhase_shape st d
  rw [hib]
  exact h

theorem denormInv_mut_reason_struct (st : AsmState) (d : Delta) (tcs : List ToolCallChunk)
    (h : denormInv st) :
    denormInv (structPhase (reasoningPhase (mutPhase st tcs) d) tcs) := by
  obtain ⟨h1, h2, h3, h4, h5, h6⟩ := h
  set stA := mutPhase st tcs with hA
  set stB := reasoningPhase stA d with hB
  have hBcur : stB.current = (mutPhase st tcs).current := by
    rw [hB, reasoningPhase_current]
  have hcurPW : List.Pairwise (fun a b => a.1 < b.1) stB.current := by
    rw [hBcur]
    exact mutPhase_current_pairwise _ _ h5
  refine ⟨?_, ?_, ?_, ?_, ?_, ?_⟩
  · rw [structPhase_content, textConcat_structPhase, hB, reasoningPhase_content, hA,
        mutPhase_content]
    cases htr : strTruthy d.reasoning_content
    · rw [reasoningPhase_neg _ _ htr, mutPhase_parts]
      exact h1
    · rw [reasoningPhase_pos _ _ htr]
      show st.content = textConcat (pushCoalesceReasoning stA.parts _)
      rw [textConcat_pushReasoning, hA, mutPhase_parts]
      exact h1
  · rw [structPhase_reasoning_content, reasoningConcat_structPhase]
    cases htr : strTruthy d.reasoning_content
    · rw [hB, reasoningPhase_neg _ _ htr, hA, mutPhase_reasoning_content, mutPhase_parts]
      exact h2
    · rw [hB, reasoningPhase_pos _ _ htr]
      show (some (stA.reasoning_content.getD "" ++ _)).getD "" =
        reasoningConcat (pushCoalesceReasoning stA.parts _)
      rw [reasoningConcat_pushReasoning, Option.getD_some, hA, mutPhase_reasoning_content,
          mutPhase_parts, h2]
  · rw [structPhase_tool_result, toolResultConcat_structPhase]
    cases htr : strTruthy d.reasoning_content
    · rw [hB, reasoningPhase_neg _ _ htr, hA, mutPhase_tool_result, mutPhase_parts]
      exact h3
    · rw [hB, reasoningPhase_pos _ _ htr]
      show stA.tool_result.getD [] = toolResultConcat (pushCoalesceReasoning stA.parts _)
      rw [toolResultConcat_pushReasoning, hA, mutPhase_tool_result, mutPhase_parts]
      exact h3
  · rw [structPhase_tool_calls, structPhase_current, Option.getD_some]
  · rw [structPhase_current]
    exact hcurPW
  · rw [structPhase_current]
    intro aid hm
    obtain ⟨p, hmem, heq⟩ := List.mem_map.mp hm
    have hmem2 : (p.1, aid) ∈ stB.current := by
      rw [← heq]
      exact hmem
    have hlook : lookupIdx stB.current p.1 = some aid :=
      mem_lookupIdx_of_pairwise _ _ _ hcurPW hmem2
    by_cases htouch : ∃ tc ∈ tcs, tc.index = p.1
    · obtain ⟨tc, htc, hidx⟩ := htouch
      refine reflectedIn_structPhase_new stB tcs tc aid htc ?_
      rw [hidx]
      exact hlook
    · have hne : ∀ tc ∈ tcs, tc.index ≠ p.1 := by
        intro tc htc hidx
        exact htouch ⟨tc, htc, hidx⟩
      have hold : lookupIdx st.current p.1 = some aid := by
        rw [hBcur, mutPhase_current_ne _ _ _ hne] at hlook
        exact hlook
      have : aid ∈ valuesIdx st.current :=
        List.mem_map.mpr ⟨(p.1, aid), lookupIdx_some_mem _ _ _ hold, rfl⟩
      have hrefl : reflectedIn aid st.parts := h6 aid this
      refine reflectedIn_structPhase stB tcs aid ?_
      have : reflectedIn aid stA.parts := by
        rw [hA, mutPhase_parts]
        exact hrefl
      rw [hB]
      exact reflectedIn_reasoningPhase _ _ _ this

theorem denormInv_applyDelta (st : AsmState) (d : Delta) (h : denormInv st) :
    denormInv (applyDelta st d) := by
  unfold applyDelta
  cases hd : d.tool_calls with
  | none =>
    dsimp only
    exact denormInv_interruptPhase _ _ (denormInv_contentPhase _ _
      (denormInv_toolResultPhase _ _ (denormInv_reasoningPhase _ _ h)))
  | some tcs =>
    dsimp only
    exact denormInv_interruptPhase _ _ (denormInv_contentPhase _ _
      (denormInv_toolResultPhase _ _ (denormInv_mut_reason_struct _ _ _ h)))

theorem denormInv_applyChunk (st : AsmState) (ch : Chunk) (h : denormInv st) :
    denormInv (applyChunk st ch) := by
  unfold applyChunk
  cases hd : deltaOf ch with
  | none =>
    dsimp only
    exact denormInv_applyUsage _ _ (denormInv_applyIdentity _ _ h)
  | some d =>
    dsimp only
    exact denormInv_applyDelta _ _ (denormInv_applyUsage _ _ (denormInv_applyIdentity _ _ h))

theorem denormInv_init (assistantId : String) : denormInv (initialAssistantMsg assistantId) := by
  refine ⟨rfl, rfl, rfl, rfl, List.Pairwise.nil, ?_⟩
  intro aid hm
  simp [initialAssistantMsg, valuesIdx] at hm

theorem denormInv_applyChunks (assistantId : String) (chs : List Chunk) :
    denormInv (applyChunks (initialAssistantMsg assistantId) chs) := by
  suffices hios : ∀ st, denormInv st → denormInv (applyChunks st chs) from
    hios _ (denormInv_init assistantId)
  induction chs with
  | nil => intro st h; exact h
  | cons ch chs ih =>
    intro st h
    exact ih _ (denormInv_applyChunk st ch h)

/-- C4: denormalization consistency.  After folding any frame sequence into
the empty assistant message, `content` is the in-order concatenation of all
text parts, `reasoning_content` of all reasoning parts, `tool_result` the
in-order concatenation of all tool_result parts, and `tool_calls` is the
index-ordered accumulator table, each of whose entries (accumulator
references) also appears in some `tool_calls` part. -/
theorem C4_denormalization_invariant (assistantId : String) (chs : List Chunk) :
    (applyChunks (initialAssistantMsg assistantId) chs).content
        = textConcat (applyChunks (initialAssistantMsg assistantId) chs).parts
  ∧ (applyChunks (initialAssistantMsg assistantId) chs).reasoning_content.getD ""
        = reasoningConcat (applyChunks (initialAssistantMsg assistantId) chs).parts
  ∧ (applyChunks (initialAssistantMsg assistantId) chs).tool_result.getD []
        = toolResultConcat (applyChunks (initialAssistantMsg assistantId) chs).parts
  ∧ (applyChunks (initialAssistantMsg assistantId) chs).tool_calls.getD []
        = valuesIdx (applyChunks (initialAssistantMsg assistantId) chs).current
  ∧ List.Pairwise (fun a b => a.1 < b.1) (applyChunks (initialAssistantMsg assistantId) chs).current
  ∧ ∀ aid ∈ (applyChunks (initialAssistantMsg assistantId) chs).tool_calls.getD [],
      reflectedIn aid (applyChunks (initialAssistantMsg assistantId) chs).parts := by
  obtain ⟨h1, h2, h3, h4, h5, h6⟩ := denormInv_applyChunks assistantId chs
  refine ⟨h1, h2, h3, h4, h5, ?_⟩
  intro aid hm
  rw [h4] at hm
  exact h6 aid hm

/-! Infrastructure for the no-duplicate-entry property of tool_calls parts (C5). -/

theorem toolCallsPart_pushText (ps : List PartR) (c : String) (ids : List Nat)
    (h : PartR.toolCalls ids ∈ pushCoalesceText ps c) : PartR.toolCalls ids ∈ ps := by
  rcases List.eq_nil_or_concat ps with hps | ⟨L, b, hps⟩ <;> subst hps
  · simp [pushCoalesceText] at h
  · have hca : L.concat b = L ++ [b] := List.concat_eq_append _ _
    rw [hca] at h ⊢
    unfold pushCoalesceText at h
    rw [List.getLast?_concat] at h
    cases b with
    | text t =>
      rw [List.dropLast_concat] at h
      rcases List.mem_append.mp h with hL | hb
      · exact List.mem_append_left _ hL
      · simp at hb
    | reasoning t =>
      rcases List.mem_append.mp h with hL | hb
      · exact hL
      · simp at hb
    | toolCalls ids₀ =>
      rcases List.mem_append.mp h with hL | hb
      · exact hL
      · simp at hb
    | toolResult rs =>
      rcases List.mem_append.mp h with hL | hb
      · exact hL
      · simp at hb

theorem toolCallsPart_pushReasoning (ps : List PartR) (c : String) (ids : List Nat)
    (h : PartR.toolCalls ids ∈ pushCoalesceReasoning ps c) : PartR.toolCalls ids ∈ ps := by
  rcases List.eq_nil_or_concat ps with hps | ⟨L, b, hps⟩ <;> subst hps
  · simp [pushCoalesceReasoning] at h
  · have hca : L.concat b = L ++ [b] := List.concat_eq_append _ _
    rw [hca] at h ⊢
    unfold pushCoalesceReasoning at h
    rw [List.getLast?_concat] at h
    cases b with
    | reasoning t =>
      rw [List.dropLast_concat] at h
      rcases List.mem_append.mp h with hL | hb
      · exact List.mem_append_left _ hL
      · simp at hb
    | text t =>
      rcases List.mem_append.mp h with hL | hb
      · exact hL
      · simp at hb
    | toolCalls ids₀ =>
      rcases List.mem_append.mp h with hL | hb
      · exact hL
      · simp at hb
    | toolResult rs =>
      rcases List.mem_append.mp h with hL | hb
      · exact hL
      · simp at hb

theorem toolCallsPart_pushToolResult (ps : List PartR) (r : ToolResult) (ids : List Nat)
    (h : PartR.toolCalls ids ∈ pushCoalesceToolResult ps r) : PartR.toolCalls ids ∈ ps := by
  rcases List.eq_nil_or_concat ps with hps | ⟨L, b, hps⟩ <;> subst hps
  · simp [pushCoalesceToolResult] at h
  · have hca : L.concat b = L ++ [b] := List.concat_eq_append _ _
    rw [hca] at h ⊢
    unfold pushCoalesceToolResult at h
    rw [List.getLast?_concat] at h
    cases b with
    | toolResult rs =>
      rw [List.dropLast_concat] at h
      rcases List.mem_append.mp h with hL | hb
      · exact List.mem_append_left _ hL
      · simp at hb
    | text t =>
      rcases List.mem_append.mp h with hL | hb
      · exact hL
      · simp at hb
    | toolCalls ids₀ =>
      rcases List.mem_append.mp h with hL | hb
      · exact hL
      · simp at hb
    | reasoning t =>
      rcases List.mem_append.mp h with hL | hb
      · exact hL
      · simp at hb

theorem toolPartNodup_reasoningPhase (st : AsmState) (d : Delta)
    (h : ∀ ids, PartR.toolCalls ids ∈ st.parts → ids.Nodup) :
    ∀ ids, PartR.toolCalls ids ∈ (reasoningPhase st d).parts → ids.Nodup := by
  intro ids hmem
  cases htr : strTruthy d.reasoning_content
  · rw [reasoningPhase_neg _ _ htr] at hmem
    exact h ids hmem
  · rw [reasoningPhase_pos _ _ htr] at hmem
    exact h ids (toolCallsPart_pushReasoning _ _ _ hmem)

theorem toolPartNodup_contentPhase (st : AsmState) (d : Delta)
    (h : ∀ ids, PartR.toolCalls ids ∈ st.parts → ids.Nodup) :
    ∀ ids, PartR.toolCalls ids ∈ (contentPhase st d).parts → ids.Nodup := by
  intro ids hmem
  cases htr : strTruthy d.content
  · rw [contentPhase_neg _ _ htr] at hmem
    exact h ids hmem
  · rw [contentPhase_pos _ _ htr] at hmem
    exact h ids (toolCallsPart_pushText _ _ _ hmem)

theorem toolPartNodup_toolResultPhase (st : AsmState) (d : Delta)
    (h : ∀ ids, PartR.toolCalls ids ∈ st.parts → ids.Nodup) :
    ∀ ids, PartR.toolCalls ids ∈ (toolResultPhase st d).parts → ids.Nodup := by
  intro ids hmem
  cases htr : d.tool_result with
  | none =>
    rw [toolResultPhase_none _ _ htr] at hmem
    exact h ids hmem
  | some r =>
    rw [toolResultPhase_some _ _ r htr] at hmem
    exact h ids (toolCallsPart_pushToolResult _ _ _ hmem)

theorem toolPartNodup_structPhase (st : AsmState) (tcs : List ToolCallChunk)
    (h : ∀ ids, PartR.toolCalls ids ∈ st.parts → ids.Nodup) :
    ∀ ids, PartR.toolCalls ids ∈ (structPhase st tcs).parts → ids.Nodup := by
  intro ids hmem
  rw [structPhase_parts] at hmem
  rcases List.eq_nil_or_concat st.parts with hps | ⟨L, b, hps⟩
  · rw [hps] at hmem
    dsimp only [List.getLast?] at hmem
    rcases List.mem_append.mp hmem with hf | hb
    · simp at hf
    · rw [List.mem_singleton] at hb
      cases hb
      exact pushIds_nodup _ _ _ List.nodup_nil
  · have hca : L.concat b = L ++ [b] := List.concat_eq_append _ _
    rw [hca] at hps
    rw [hps, List.getLast?_concat] at hmem
    cases b with
    | toolCalls ids₀ =>
      rw [List.dropLast_concat] at hmem
      rcases List.mem_append.mp hmem with hf | hb
      · exact h ids (hps ▸ List.mem_append_left _ hf)
      · rw [List.mem_singleton] at hb
        cases hb
        refine pushIds_nodup _ _ _ ?_
        exact h ids₀ (hps ▸ List.mem_append_right _ (List.mem_singleton.mpr rfl))
    | text t =>
      rcases List.mem_append.mp hmem with hf | hb
      · exact h ids (hps ▸ hf)
      · rw [List.mem_singleton] at hb
        cases hb
        exact pushIds_nodup _ _ _ List.nodup_nil
    | reasoning t =>
      rcases List.mem_append.mp hmem with hf | hb
      · exact h ids (hps ▸ hf)
      · rw [List.mem_singleton] at hb
        cases hb
        exact pushIds_nodup _ _ _ List.nodup_nil
    | toolResult rs =>
      rcases List.mem_append.mp hmem with hf | hb
      · exact h ids (hps ▸ hf)
      · rw [List.mem_singleton] at hb
        cases hb
        exact pushIds_nodup _ _ _ List.nodup_nil

theorem toolPartNodup_applyChunk (st : AsmState) (ch : Chunk)
    (h : ∀ ids, PartR.toolCalls ids ∈ st.parts → ids.Nodup) :
    ∀ ids, PartR.toolCalls ids ∈ (applyChunk st ch).parts → ids.Nodup := by
  unfold applyChunk
  cases hd : deltaOf ch with
  | none =>
    dsimp only
    intro ids hmem
    rw [applyUsage_parts, applyIdentity_parts] at hmem
    exact h ids hmem
  | some d =>
    dsimp only
    have h0 : ∀ ids, PartR.toolCalls ids ∈ (applyUsage (applyIdentity st ch) ch).parts →
        ids.Nodup := by
      intro ids hmem
      rw [applyUsage_parts, applyIdentity_parts] at hmem
      exact h ids hmem
    unfold applyDelta
    cases htc : d.tool_calls with
    | none =>
      dsimp only
      intro ids hmem
      rw [interruptPhase_parts] at hmem
      exact toolPartNodup_contentPhase _ _
        (toolPartNodup_toolResultPhase _ _
          (toolPartNodup_reasoningPhase _ _ h0)) ids hmem
    | some tcs =>
      dsimp only
      intro ids hmem
      rw [interruptPhase_parts] at hmem
      refine toolPartNodup_contentPhase _ _
        (toolPartNodup_toolResultPhase _ _
          (toolPartNodup_structPhase _ _
            (toolPartNodup_reasoningPhase _ _ ?_))) ids hmem
      intro ids₀ hmem₀
      rw [mutPhase_parts] at hmem₀
      exact h0 ids₀ hmem₀

/-- C5 falls: the explicit-id tie-break (C3) replaces the accumulator at an
already-seen index with a fresh object, and the structural phase pushes the
replacement next to the stale entry, so the tail tool_calls part holds two
entries both created for index 0: after `c5Chunks` (all of whose fragments
carry index 0) the tail part holds the two distinct accumulators `a` and
`b` while the accumulator table holds the single index 0. -/
theorem C5_duplicate_index_counterexample :
    (applyChunks (initialAssistantMsg "msg") c5Chunks).parts = [PartR.toolCalls [0, 1]]
  ∧ (applyChunks (initialAssistantMsg "msg") c5Chunks).current = [(0, 1)]
  ∧ resolvedParts (applyChunks (initialAssistantMsg "msg") c5Chunks) =
      [MessagePart.tool_calls
        [{ id := "a", function := { name := "x", arguments := "" } },
         { id := "b", function := { name := "", arguments := "" } }]]
  ∧ (∀ ch ∈ c5Chunks, ∀ d, deltaOf ch = some d → ∀ tcs, d.tool_calls = some tcs →
      ∀ tc ∈ tcs, tc.index = 0) := by
  refine ⟨by decide, by decide, by decide, by decide⟩

/-- C5 (amended): reflecting an accumulator into the part sequence appends a
new tool_calls part or adds the accumulator reference to the tail tool_calls
part only when that very reference is absent, so no tool_calls part ever
holds the same accumulator reference twice; two distinct references born
from the same index can coexist when a later fragment with an explicit id
replaces that index's accumulator. -/
theorem C5_tool_part_entries_nodup (assistantId : String) (chs : List Chunk) :
    ∀ ids, PartR.toolCalls ids ∈ (applyChunks (initialAssistantMsg assistantId) chs).parts →
      ids.Nodup := by
  suffices hios : ∀ st, (∀ ids, PartR.toolCalls ids ∈ st.parts → ids.Nodup) →
      ∀ ids, PartR.toolCalls ids ∈ (applyChunks st chs).parts → ids.Nodup by
    refine hios _ ?_
    intro ids hmem
    simp [initialAssistantMsg] at hmem
  induction chs with
  | nil => intro st h; exact h
  | cons ch chs ih =>
    intro st h
    exact ih _ (toolPartNodup_applyChunk st ch h)

/-- Witness for C5 (amended): the unique tool_calls part produced by the accumulation sequence has no duplicate references. -/
theorem C5_tool_part_entries_nodup_witness :
    PartR.toolCalls [0] ∈ (applyChunks (initialAssistantMsg "msg") c2Chunks).parts
  ∧ ([0] : List Nat).Nodup := by
  refine ⟨by decide, ?_⟩
  exact C5_tool_part_entries_nodup "msg" c2Chunks [0] (by decide)

/-! Correlation-set membership (C9). -/

theorem mem_completedToolIds_foldl (msgs : List Message) (tid : String) :
    ∀ acc, (tid ∈ msgs.foldl (fun ids msg => ids ++ messageCompletedIds msg) acc
      ↔ tid ∈ acc ∨ ∃ msg ∈ msgs, tid ∈ messageCompletedIds msg) := by
  induction msgs with
  | nil => intro acc; simp
  | cons m ms ih =>
    intro acc
    rw [List.foldl_cons, ih]
    simp [List.mem_append, or_assoc]

/-- C9 falls: `completedToolIds` scans the whole history, not just the
messages after the one holding the tool call.  In `c9History` the result for
id `a` appears strictly before the (last) message holding the call, yet the
code marks `a` completed, while no later message carries a matching result. -/
theorem C9_later_message_counterexample :
    "a" ∈ completedToolIds c9History
  ∧ hasToolCall c9CallMsg "a" = true
  ∧ claimCompleted c9History "a" = false := by
  refine ⟨by decide, by decide, by decide⟩

/-- C9 (amended): a tool call is marked completed exactly when some message
anywhere in the history — earlier, the same message, or later — carries a
tool result with a matching truthy `tool_call_id` through any of the three
scanned channels (legacy list, tool_result part, or a tool/tool_result-role
message's own `tool_call_id`); the set is recomputed from the full history. -/
theorem C9_completed_iff_some_message (msgs : List Message) (tid : String) :
    tid ∈ completedToolIds msgs ↔ ∃ msg ∈ msgs, carriesResult msg tid = true := by
  unfold completedToolIds carriesResult
  rw [mem_completedToolIds_foldl msgs tid []]
  simp

/-! Scheduler lemmas (C7). -/

theorem scheduleUpdate_msg (s : SchedState) : (scheduleUpdate s).msg = s.msg := by
  unfold scheduleUpdate cancelRaf
  dsimp only
  repeat' split
  all_goals rfl

theorem scheduleUpdate_published (s : SchedState) : (scheduleUpdate s).published = s.published := by
  unfold scheduleUpdate cancelRaf
  dsimp only
  repeat' split
  all_goals rfl

theorem fireRaf_msg (s : SchedState) (e : Bool) : (fireRaf s e).msg = s.msg := by
  unfold fireRaf rafCallback
  dsimp only
  repeat' split
  all_goals first
    | rfl
    | exact scheduleUpdate_msg _

theorem fireRaf_published (s : SchedState) (e : Bool) :
    (fireRaf s e).published = s.published ∨ (fireRaf s e).published = s.published ++ [s.msg] := by
  unfold fireRaf rafCallback
  dsimp only
  repeat' split
  all_goals first
    | exact Or.inl rfl
    | exact Or.inr rfl
    | exact Or.inl (scheduleUpdate_published _)

theorem runEvents_msg (evs : List StreamEv) :
    ∀ s : SchedState, (runEvents s evs).msg = applyChunks s.msg (chunksOfEvents evs) := by
  induction evs with
  | nil => intro s; rfl
  | cons ev evs ih =>
    intro s
    have step : runEvents s (ev :: evs) = runEvents (stepEv s ev) evs := rfl
    rw [step, ih]
    cases ev with
    | frame ch =>
      show applyChunks (stepEv s (StreamEv.frame ch)).msg _ = _
      unfold stepEv
      rw [scheduleUpdate_msg]
      rfl
    | raf e =>
      show applyChunks (stepEv s (StreamEv.raf e)).msg _ = _
      unfold stepEv
      rw [fireRaf_msg]
      rfl

theorem finalFlush_msg (s : SchedState) : (finalFlush s).msg = s.msg := by
  unfold finalFlush cancelRaf
  dsimp only
  repeat' split
  all_goals rfl

theorem finalFlush_published (s : SchedState) :
    (finalFlush s).published = s.published ++ [s.msg] := by
  unfold finalFlush cancelRaf
  dsimp only
  repeat' split
  all_goals rfl

theorem runPost_msg (fires : List Bool) :
    ∀ s : SchedState, (runPost s fires).msg = s.msg := by
  induction fires with
  | nil => intro s; rfl
  | cons e fires ih =>
    intro s
    have step : runPost s (e :: fires) = runPost (fireRaf s e) fires := rfl
    rw [step, ih, fireRaf_msg]

theorem runPost_published_getLast (fires : List Bool) :
    ∀ s : SchedState, s.published.getLast? = some s.msg →
      (runPost s fires).published.getLast? = some s.msg := by
  induction fires with
  | nil => intro s h; exact h
  | cons e fires ih =>
    intro s h
    have step : runPost s (e :: fires) = runPost (fireRaf s e) fires := rfl
    rw [step]
    have hmsg : (fireRaf s e).msg = s.msg := fireRaf_msg s e
    have hlast : (fireRaf s e).published.getLast? = some (fireRaf s e).msg := by
      rcases fireRaf_published s e with hp | hp
      · rw [hp, hmsg]; exact h
      · rw [hp, hmsg, List.getLast?_concat]
    have := ih (fireRaf s e) hlast
    rw [hmsg] at this
    exact this

theorem applyChunk_content (st : AsmState) (ch : Chunk) :
    (applyChunk st ch).content = st.content ++ contentFragOf ch := by
  unfold applyChunk contentFragOf
  cases hd : deltaOf ch with
  | none => simp
  | some d =>
    dsimp only
    unfold applyDelta
    rw [interruptPhase_content]
    cases htr : strTruthy d.content
    · rw [contentPhase_neg _ _ htr]
      cases d.tool_calls <;> simp
    · rw [contentPhase_pos _ _ htr]
      dsimp only
      rw [toolResultPhase_content]
      cases d.tool_calls <;> simp

theorem applyChunks_content (chs : List Chunk) :
    ∀ st : AsmState, (applyChunks st chs).content = st.content ++ contentConcatChunks chs := by
  induction chs with
  | nil => intro st; simp [applyChunks, contentConcatChunks]
  | cons ch chs ih =>
    intro st
    have step : applyChunks st (ch :: chs) = applyChunks (applyChunk st ch) chs := rfl
    rw [step, ih, applyChunk_content]
    show _ = st.content ++ (contentFragOf ch ++ contentConcatChunks chs)
    rw [String.append_assoc]

/-- C7 falls on its cancellation clause: when the throttle's polling path
re-arms the callback, `rafId = null` at the end of the callback body
overwrites the handle `scheduleUpdate` just recorded, so the post-stream
block finds `rafId === null`, skips `cancelAnimationFrame`, and the armed
callback survives the stream end; if it later fires it publishes a second
time after the "one final" publish.  Concretely: one content frame, one
premature callback fire, stream end — the callback is still armed with its
handle lost, and one post-stream fire yields two publishes. -/
theorem C7_pending_callback_counterexample :
    (finalFlush (runEvents (initSched (initialAssistantMsg "msg"))
        [StreamEv.frame (mkContentChunk "Hi"), StreamEv.raf false])).armed ≠ none
  ∧ (finalFlush (runEvents (initSched (initialAssistantMsg "msg"))
        [StreamEv.frame (mkContentChunk "Hi"), StreamEv.raf false])).rafId = none
  ∧ (runPost (finalFlush (runEvents (initSched (initialAssistantMsg "msg"))
        [StreamEv.frame (mkContentChunk "Hi"), StreamEv.raf false])) [true]).published.length = 2 := by
  refine ⟨by decide, by decide, by decide⟩

/-- C7 (amended): the post-stream block always performs a final synchronous
publish of the fully assembled state, whose `content` is the concatenation
of every content fragment of the stream, for every interleaving of frame
arrivals and callback fires; and even though a callback re-armed by the
polling path escapes cancellation (its handle is lost) and may fire after
stream end, every such late publish republishes the same final state, so
the last published snapshot always carries the full concatenation. -/
theorem C7_scheduler_final_publish (st0 : AsmState) (evs : List StreamEv) (postFires : List Bool) :
    (finalFlush (runEvents (initSched st0) evs)).published.getLast?
        = some (applyChunks st0 (chunksOfEvents evs))
  ∧ (runPost (finalFlush (runEvents (initSched st0) evs)) postFires).published.getLast?
        = some (applyChunks st0 (chunksOfEvents evs))
  ∧ (applyChunks st0 (chunksOfEvents evs)).content
        = st0.content ++ contentConcatChunks (chunksOfEvents evs) := by
  have hmsg : (runEvents (initSched st0) evs).msg = applyChunks st0 (chunksOfEvents evs) :=
    runEvents_msg evs (initSched st0)
  have hlast : (finalFlush (runEvents (initSched st0) evs)).published.getLast?
      = some (applyChunks st0 (chunksOfEvents evs)) := by
    rw [finalFlush_published, List.getLast?_concat, hmsg]
  refine ⟨hlast, ?_, applyChunks_content _ _⟩
  have hfmsg : (finalFlush (runEvents (initSched st0) evs)).msg
      = applyChunks st0 (chunksOfEvents evs) := by
    rw [finalFlush_msg, hmsg]
  have := runPost_published_getLast postFires (finalFlush (runEvents (initSched st0) evs))
    (by rw [hfmsg]; exact hlast)
  rw [hfmsg] at this
  exact this

/-! Decoder lemmas (C6). -/

theorem splitNL_ne_nil (l : List Char) : splitNL l ≠ [] := by
  induction l with
  | nil => simp [splitNL]
  | cons c cs ih =>
    unfold splitNL
    split
    · simp
    · split
      · simp
      · simp

theorem splitNL_cons_nl (cs : List Char) : splitNL ('\n' :: cs) = [] :: splitNL cs := rfl

theorem splitNL_cons_ne (c : Char) (cs : List Char) (hc : c ≠ '\n') {u : List Char}
    {us : List (List Char)} (hcs : splitNL cs = u :: us) :
    splitNL (c :: cs) = (c :: u) :: us := by
  unfold splitNL
  rw [if_neg hc, hcs]

theorem splitNL_noNL (l : List Char) (h : '\n' ∉ l) : splitNL l = [l] := by
  induction l with
  | nil => rfl
  | cons c cs ih =>
    have hc : c ≠ '\n' := by
      intro he
      subst he
      exact h (List.mem_cons_self _ _)
    have hcs : splitNL cs = [cs] := ih (fun hm => h (List.mem_cons_of_mem _ hm))
    exact splitNL_cons_ne _ _ hc hcs

theorem noNL_getLast_splitNL (l : List Char) : '\n' ∉ ((splitNL l).getLast?).getD [] := by
  induction l with
  | nil => simp [splitNL]
  | cons c cs ih =>
    obtain ⟨u, us, hcs⟩ := List.exists_cons_of_ne_nil (splitNL_ne_nil cs)
    rw [hcs] at ih
    by_cases hc : c = '\n'
    · subst hc
      rw [splitNL_cons_nl, hcs]
      simpa using ih
    · rw [splitNL_cons_ne _ _ hc hcs]
      cases us with
      | nil =>
        simp only [List.getLast?_singleton, Option.getD_some] at ih ⊢
        intro hmem
        rw [List.mem_cons] at hmem
        rcases hmem with h1 | h2
        · exact hc h1.symm
        · exact ih h2
      | cons u2 us2 =>
        simpa using ih

theorem splitNL_append (a b : List Char) :
    splitNL (a ++ b) =
      (splitNL a).dropLast ++ mergeFirst (((splitNL a).getLast?).getD []) (splitNL b) := by
  induction a with
  | nil =>
    obtain ⟨m, ms, hb⟩ := List.exists_cons_of_ne_nil (splitNL_ne_nil b)
    rw [List.nil_append, hb]
    simp [splitNL, mergeFirst]
  | cons c cs ih =>
    by_cases hc : c = '\n'
    · subst hc
      rw [List.cons_append, splitNL_cons_nl, splitNL_cons_nl, ih]
      obtain ⟨u, us, hcs⟩ := List.exists_cons_of_ne_nil (splitNL_ne_nil cs)
      rw [hcs]
      simp
    · rw [List.cons_append]
      obtain ⟨u, us, hcs⟩ := List.exists_cons_of_ne_nil (splitNL_ne_nil cs)
      obtain ⟨m, ms, hb⟩ := List.exists_cons_of_ne_nil (splitNL_ne_nil b)
      cases us with
      | nil =>
        have hcsb : splitNL (cs ++ b) = (u ++ m) :: ms := by
          rw [ih, hcs, hb]
          simp [mergeFirst]
        rw [splitNL_cons_ne _ _ hc hcsb, splitNL_cons_ne _ _ hc hcs, hb]
        simp [mergeFirst]
      | cons u2 us2 =>
        have hcsb : splitNL (cs ++ b) =
            u :: ((u2 :: us2).dropLast ++
              mergeFirst (((u2 :: us2).getLast?).getD []) (splitNL b)) := by
          rw [ih, hcs]
          simp
        rw [splitNL_cons_ne _ _ hc hcsb, splitNL_cons_ne _ _ hc hcs]
        simp

theorem decodeStep_eq {α : Type} (parse : List Char → Option α) (out : List α)
    (buf chunk : List Char) :
    decodeStep parse (out, buf) chunk =
      (out ++ (splitNL (buf ++ chunk)).dropLast.filterMap (emitLine parse),
       ((splitNL (buf ++ chunk)).getLast?).getD []) := rfl

theorem getLast?_or_getD (x : List Char) (ms : List (List Char)) (o : Option (List Char)) :
    (((x :: ms).getLast?).or o).getD [] = ((x :: ms).getLast?).getD [] := by
  induction ms generalizing x with
  | nil => rfl
  | cons y ys ih =>
    rw [List.getLast?_cons_cons]
    exact ih y

theorem decode_foldl {α : Type} (parse : List Char → Option α) (chunks : List (List Char)) :
    ∀ (out : List α) (buf : List Char), '\n' ∉ buf →
      chunks.foldl (decodeStep parse) (out, buf) =
        (out ++ ((splitNL (buf ++ chunks.flatten)).dropLast).filterMap (emitLine parse),
         ((splitNL (buf ++ chunks.flatten)).getLast?).getD []) := by
  induction chunks with
  | nil =>
    intro out buf hb
    rw [List.foldl_nil, List.flatten_nil, List.append_nil, splitNL_noNL _ hb]
    simp
  | cons chnk chunks ih =>
    intro out buf hb
    rw [List.foldl_cons, decodeStep_eq, ih _ _ (noNL_getLast_splitNL (buf ++ chnk))]
    have hJ : buf ++ (chnk :: chunks).flatten = (buf ++ chnk) ++ chunks.flatten := by
      rw [List.flatten_cons, List.append_assoc]
    rw [hJ, splitNL_append (buf ++ chnk) chunks.flatten,
        splitNL_append (((splitNL (buf ++ chnk)).getLast?).getD []) chunks.flatten,
        splitNL_noNL _ (noNL_getLast_splitNL (buf ++ chnk))]
    obtain ⟨m, ms, hj⟩ := List.exists_cons_of_ne_nil (splitNL_ne_nil chunks.flatten)
    rw [hj]
    simp [mergeFirst, List.filterMap_append]
    rw [getLast?_or_getD]

theorem streamDecode_eq {α : Type} (parse : List Char → Option α) (chunks : List (List Char)) :
    streamDecode parse chunks = ((splitNL chunks.flatten).dropLast).filterMap (emitLine parse) := by
  unfold streamDecode
  rw [decode_foldl parse chunks [] [] (by simp)]
  simp

/-- C6 falls on which lines produce frames: the code trims each line before
testing the marker, so a complete line with leading whitespace before
`data: ` still yields a frame even though it does not start with the
marker.  On the single chunk `" data: 0\n"` the decoder emits the parsed
frame, while the claim's own per-line rule (un-trimmed marker test) yields
no frame for any complete line of the input. -/
theorem C6_marker_trim_counterexample :
    streamDecode pNat [(" data: 0\n").toList] = [0]
  ∧ ((splitNL ((" data: 0\n").toList)).dropLast).filterMap (claimEmitLine pNat) = [] := by
  refine ⟨by decide, by decide⟩

/-- C6 (amended): over any chunking of the byte input, the decoder emits
exactly the parse results of the complete newline-terminated lines that,
after trimming, start with the `data: ` marker, in input order; blank
(whitespace-only) lines, the sentinel, lines whose trimmed form lacks the
marker, and lines whose remainder fails to parse produce no frame and do
not abort the stream (a frame following a malformed line is still
emitted), and at end-of-data the final buffered line without a trailing
newline is discarded, never parsed. -/
theorem C6_decoder_contract {α : Type} (parse : List Char → Option α) (chunks : List (List Char)) :
    streamDecode parse chunks = ((splitNL chunks.flatten).dropLast).filterMap (emitLine parse)
  ∧ (∀ line, trimChars line = [] → emitLine parse line = none)
  ∧ (∀ line, trimChars line = sseSentinel → emitLine parse line = none)
  ∧ (∀ line, ¬ sseMarker.isPrefixOf (trimChars line) → emitLine parse line = none)
  ∧ (∀ line, trimChars line ≠ [] → trimChars line ≠ sseSentinel →
      sseMarker.isPrefixOf (trimChars line) →
      emitLine parse line = parse ((trimChars line).drop 6))
  ∧ streamDecode pNat [("data: !\ndata: 0\n").toList] = [0] := by
  refine ⟨streamDecode_eq parse chunks, ?_, ?_, ?_, ?_, by decide⟩
  · intro line h
    unfold emitLine
    rw [if_pos (Or.inl h)]
  · intro line h
    unfold emitLine
    rw [if_pos (Or.inr h)]
  · intro line h
    unfold emitLine
    by_cases h0 : trimChars line = [] ∨ trimChars line = sseSentinel
    · rw [if_pos h0]
    · rw [if_neg h0, if_neg h]
  · intro line h1 h2 h3
    unfold emitLine
    rw [if_neg (by simp [h1, h2]), if_pos h3]

/-- Witness for C6 (amended): the skip clause for a line whose trimmed form lacks the marker. -/
theorem C6_decoder_contract_witness :
    ¬ sseMarker.isPrefixOf (trimChars (("event: ping").toList))
  ∧ emitLine pNat (("event: ping").toList) = none := by
  refine ⟨by decide, ?_⟩
  exact (C6_decoder_contract pNat []).2.2.2.1 (("event: ping").toList) (by decide)

end Chatbot
